import Mathlib

/-!
# telegohandler predicates: a shallow embedding

The development follows `src/telegohandler/predicates.go`.

Conventions of the embedding.

* A Go `string` is modelled as the list of its code points (`Str`); this is exact for
  valid UTF-8 texts, on which `regexp`, `strings.EqualFold`, `strings.Split`,
  `strings.Contains`, `strings.HasPrefix` and `strings.HasSuffix` all act rune by rune
  or on rune-aligned byte ranges.
* A Go pointer is an `Option`; `none` is `nil`.
* A Go boolean expression that may fault at run time (nil dereference, index out of
  range) is an `Option Bool`; `none` is the fault.  A `Predicate` is thus a function
  `Update → Option Bool`.
* The standard-library pieces the source calls (`regexp`, `strings`) are modelled by
  small executable definitions that follow their documented semantics.
-/

namespace Telego

/-- Go strings, as lists of code points. -/
abbrev Str := List Char

/-! ## The update model -/

/-- Modelled from the spec: the `telego.Message` type is declared outside the files at
hand; the predicates read only its `Text` field. -/
structure Message where
  Text : Str
  deriving DecidableEq, Repr

/-- Modelled from the spec: the `telego.InlineQuery` type; only its `Query` field is read. -/
structure InlineQuery where
  Query : Str
  deriving DecidableEq, Repr

/-- Modelled from the spec: the `telego.CallbackQuery` type; the predicates read its `Data`
field and test its `Message` pointer. -/
structure CallbackQuery where
  Data : Str
  Message : Option Message
  deriving DecidableEq, Repr

/-- Modelled from the spec: the `telego.Update` type, a record of mutually nilable slots
(section 3 of the specification).  Slots whose payload the predicates never read carry
`Unit`. -/
structure Update where
  Message : Option Telego.Message := none
  EditedMessage : Option Telego.Message := none
  ChannelPost : Option Telego.Message := none
  EditedChannelPost : Option Telego.Message := none
  InlineQuery : Option Telego.InlineQuery := none
  ChosenInlineResult : Option Unit := none
  CallbackQuery : Option Telego.CallbackQuery := none
  ShippingQuery : Option Unit := none
  PreCheckoutQuery : Option Unit := none
  Poll : Option Unit := none
  PollAnswer : Option Unit := none
  MyChatMember : Option Unit := none
  ChatMember : Option Unit := none
  ChatJoinRequest : Option Unit := none
  deriving DecidableEq, Repr

/-- A predicate maps an update to a boolean, or faults (`none`). -/
abbrev Predicate := Update → Option Bool

/-! ## Go boolean operators on possibly faulting operands -/

/-- Go `a && b`: `b` is evaluated only when `a` is true; a fault in an evaluated operand
is the fault of the whole expression. -/
def goAnd (a b : Option Bool) : Option Bool :=
  match a with
  | none => none
  | some false => some false
  | some true => b

/-- Go `a || b`: `b` is evaluated only when `a` is false. -/
def goOr (a b : Option Bool) : Option Bool :=
  match a with
  | none => none
  | some true => some true
  | some false => b

/-- Go `!a`. -/
def goNot (a : Option Bool) : Option Bool :=
  match a with
  | none => none
  | some b => some (!b)

/-! ## The `regexp` fragment -/

/-- Syntax trees of regular expressions, named after the operators of Go's
`regexp/syntax` (`OpLiteral`, `OpCharClass`, `OpAnyCharNotNL`, `OpBeginText`, ...). -/
inductive Regexp where
  | emptyMatch : Regexp
  | beginText : Regexp
  | endText : Regexp
  | literal (c : Char) : Regexp
  | charClass (p : Char → Bool) : Regexp
  | anyCharNotNL : Regexp
  | concat (a b : Regexp) : Regexp
  | alternate (a b : Regexp) : Regexp
  | quest (a : Regexp) : Regexp
  | star (a : Regexp) : Regexp
  | plus (a : Regexp) : Regexp
  | capture (idx : Nat) (a : Regexp) : Regexp

/-- A matching thread: the offset reached, the input still to read, and the capture
groups closed so far (most recent first). -/
structure Thread where
  pos : Nat
  rest : Str
  cap : List (Nat × Str)
  deriving DecidableEq, Repr

/-- Consume one character satisfying `p`, then continue with `k`. -/
def stepChar (p : Char → Bool) (t : Thread) (k : Thread → Option Thread) : Option Thread :=
  match t.rest with
  | [] => none
  | x :: xs => if p x then k { pos := t.pos + 1, rest := xs, cap := t.cap } else none

/-- Greedy iteration of `body`: prefer one more iteration (which must consume input) over
leaving the loop.  The counter bounds the number of iterations by the input length. -/
def starLoop (body : Thread → (Thread → Option Thread) → Option Thread)
    (k : Thread → Option Thread) : Nat → Thread → Option Thread
  | 0, t => k t
  | n + 1, t =>
    match body t (fun t1 => if t1.rest.length < t.rest.length then starLoop body k n t1 else none) with
    | some r => some r
    | none => k t

/-- Backtracking matcher with leftmost-first (Perl-like) preference, in
continuation-passing style: `run re t k` is the first thread, in priority order, that
matches `re` from `t` and on which the continuation `k` succeeds. -/
def Regexp.run : Regexp → Thread → (Thread → Option Thread) → Option Thread
  | .emptyMatch, t, k => k t
  | .beginText, t, k => if t.pos = 0 then k t else none
  | .endText, t, k => if t.rest.isEmpty then k t else none
  | .literal c, t, k => stepChar (fun x => x == c) t k
  | .charClass p, t, k => stepChar p t k
  | .anyCharNotNL, t, k => stepChar (fun x => x != '\n') t k
  | .concat a b, t, k => Regexp.run a t (fun t1 => Regexp.run b t1 k)
  | .alternate a b, t, k =>
    match Regexp.run a t k with
    | some r => some r
    | none => Regexp.run b t k
  | .quest a, t, k =>
    match Regexp.run a t k with
    | some r => some r
    | none => k t
  | .star a, t, k => starLoop (Regexp.run a) k t.rest.length t
  | .plus a, t, k => Regexp.run a t (fun t1 => starLoop (Regexp.run a) k t1.rest.length t1)
  | .capture idx a, t, k =>
    Regexp.run a t (fun t1 => k { t1 with cap := (idx, t.rest.take (t1.pos - t.pos)) :: t1.cap })

/-- Number of capture groups (`Regexp.NumSubexp`). -/
def Regexp.numSubexp : Regexp → Nat
  | .concat a b => max a.numSubexp b.numSubexp
  | .alternate a b => max a.numSubexp b.numSubexp
  | .quest a => a.numSubexp
  | .star a => a.numSubexp
  | .plus a => a.numSubexp
  | .capture idx a => max idx a.numSubexp
  | _ => 0

/-- Unanchored search: the leftmost start offset at which the expression matches, with
the final thread of the preferred match there. -/
def Regexp.searchFrom (re : Regexp) : Nat → Str → Option (Nat × Thread)
  | pos, [] =>
    match re.run { pos := pos, rest := [], cap := [] } some with
    | some r => some (pos, r)
    | none => none
  | pos, c :: cs =>
    match re.run { pos := pos, rest := c :: cs, cap := [] } some with
    | some r => some (pos, r)
    | none => Regexp.searchFrom re (pos + 1) cs

/-- Go `(*Regexp).MatchString`. -/
def Regexp.MatchString (re : Regexp) (s : Str) : Bool :=
  (re.searchFrom 0 s).isSome

/-- Text of capture group `i` in a finished thread, `""` when the group took no part. -/
def Thread.group (t : Thread) (i : Nat) : Str :=
  match t.cap.lookup i with
  | some s => s
  | none => []

/-- Go `(*Regexp).FindStringSubmatch`: `nil` (the empty slice) when there is no match,
otherwise the matched text followed by the text of each capture group. -/
def Regexp.FindStringSubmatch (re : Regexp) (s : Str) : List Str :=
  match re.searchFrom 0 s with
  | none => []
  | some (start, t) =>
    ((s.drop start).take (t.pos - start)) :: (List.range re.numSubexp).map (fun i => t.group (i + 1))

/-- The class `\w` of Go regular expressions: `[0-9A-Za-z_]`. -/
def isWordChar (c : Char) : Bool :=
  (48 ≤ c.toNat && c.toNat ≤ 57) || (65 ≤ c.toNat && c.toNat ≤ 90) ||
    (97 ≤ c.toNat && c.toNat ≤ 122) || c.toNat == 95

/-- CommandRegexp matches to command and has match groups on command and arguments:
the parse of the pattern `^/(\w+) ?(.*)$`. -/
def CommandRegexp : Regexp :=
  .concat .beginText
    (.concat (.literal '/')
      (.concat (.capture 1 (.plus (.charClass isWordChar)))
        (.concat (.quest (.literal ' '))
          (.concat (.capture 2 (.star .anyCharNotNL)) .endText))))

/-- CommandMatchGroupsLen represents length of match groups of CommandRegexp. -/
def CommandMatchGroupsLen : Nat := 3

/-! ## The `strings` functions the predicates call -/

/-- The general case of `strings.EqualFold` for two distinct runes `sr < tr`: walk the
fold orbit of `sr` with `simpleFold` (Go's `unicode.SimpleFold`) while the current rune
differs from `sr` and is below `tr`, then compare with `tr`.  The counter bounds the
walk by the number of code points. -/
def foldWalk (simpleFold : Char → Char) (sr tr : Char) : Nat → Char → Bool
  | 0, r => r == tr
  | n + 1, r =>
    if r != sr && r.toNat < tr.toNat then foldWalk simpleFold sr tr n (simpleFold r) else r == tr

/-- One step of `strings.EqualFold`: are the runes `sr` and `tr` equal under simple case
folding?  Equal runes are; two ASCII runes are when they are the upper and lower case of
one letter; otherwise the fold orbit decides. -/
def foldRuneEq (simpleFold : Char → Char) (sr tr : Char) : Bool :=
  if tr == sr then true
  else
    let lo := if tr.toNat < sr.toNat then tr else sr
    let hi := if tr.toNat < sr.toNat then sr else tr
    if hi.toNat < 128 then
      65 ≤ lo.toNat && lo.toNat ≤ 90 && hi.toNat == lo.toNat + 32
    else
      foldWalk simpleFold lo hi 1114112 (simpleFold lo)

/-- Go `strings.EqualFold`: equality of the two texts under simple Unicode case folding,
rune by rune.  The Unicode table behind `unicode.SimpleFold` is the parameter
`simpleFold`. -/
def EqualFold (simpleFold : Char → Char) : Str → Str → Bool
  | [], [] => true
  | [], _ :: _ => false
  | _ :: _, [] => false
  | sr :: s, tr :: t => foldRuneEq simpleFold sr tr && EqualFold simpleFold s t

/-- The restriction of `unicode.SimpleFold` to the fold orbits of U+0000..U+007F: the
letters, with the orbits `K k U+212A` and `S s U+017F`; every other rune is left alone.
It serves to evaluate examples. -/
def simpleFoldLatin (c : Char) : Char :=
  if c = 'k' then Char.ofNat 8490
  else if c = Char.ofNat 8490 then 'K'
  else if c = 's' then Char.ofNat 383
  else if c = Char.ofNat 383 then 'S'
  else if 65 ≤ c.toNat ∧ c.toNat ≤ 90 then Char.ofNat (c.toNat + 32)
  else if 97 ≤ c.toNat ∧ c.toNat ≤ 122 then Char.ofNat (c.toNat - 32)
  else c

/-- Go `strings.HasPrefix`. -/
def HasPrefix (s pre : Str) : Bool :=
  pre.isPrefixOf s

/-- Go `strings.HasSuffix`. -/
def HasSuffix (s suf : Str) : Bool :=
  suf.isSuffixOf s

/-- Go `strings.Contains`: `substr` starts at some offset of `s`. -/
def Contains : Str → Str → Bool
  | [], substr => substr.isEmpty
  | c :: cs, substr => substr.isPrefixOf (c :: cs) || Contains cs substr

/-- Go `strings.Split(s, sep)` for a separator of one character (the source splits on
`" "`): the pieces of `s` between the separators, one more than there are separators. -/
def Split (s : Str) (sep : Char) : List Str :=
  match s with
  | [] => [[]]
  | c :: cs =>
    if c = sep then [] :: Split cs sep
    else
      match Split cs sep with
      | [] => [[c]]
      | piece :: pieces => (c :: piece) :: pieces

/-- Go `strings.Join(elems, sep)` for a separator of one character. -/
def Join (elems : List Str) (sep : Char) : Str :=
  match elems with
  | [] => []
  | [e] => e
  | e :: es => e ++ sep :: Join es sep

/-! ## Combinators -/

/-- The loop of `Union`: the first predicate that is true ends it. -/
def unionLoop : List Predicate → Update → Option Bool
  | [], _ => some false
  | p :: ps, update =>
    match p update with
    | none => none
    | some true => some true
    | some false => unionLoop ps update

/-- Union is true if at least one of predicates is true. -/
def Union (predicates : List Predicate) : Predicate :=
  fun update => unionLoop predicates update

/-- Not is true if predicate is false. -/
def Not (predicate : Predicate) : Predicate :=
  fun update => goNot (predicate update)

/-! ## Message predicates -/

/-- Reading a field through a pointer: a fault when the pointer is nil. -/
def field {α β : Type} (ptr : Option α) (f : α → β) : Option β :=
  match ptr with
  | none => none
  | some a => some (f a)

def anyMassage (message : Option Message) : Option Bool :=
  some message.isSome

/-- AnyMessage is true if message isn't nil. -/
def AnyMessage : Predicate :=
  fun update => anyMassage update.Message

def anyMassageWithText (message : Option Message) : Option Bool :=
  goAnd (some message.isSome) ((field message Message.Text).map (fun text => text != []))

/-- AnyMessageWithText is true if message isn't nil and its text not empty. -/
def AnyMessageWithText : Predicate :=
  fun update => anyMassageWithText update.Message

def textEqual (message : Option Message) (text : Str) : Option Bool :=
  goAnd (some message.isSome) ((field message Message.Text).map (fun t => t == text))

/-- TextEqual is true if message isn't nil, and its text equal to specified text. -/
def TextEqual (text : Str) : Predicate :=
  fun update => textEqual update.Message text

def textEqualFold (simpleFold : Char → Char) (message : Option Message) (text : Str) :
    Option Bool :=
  goAnd (some message.isSome)
    ((field message Message.Text).map (fun t => EqualFold simpleFold t text))

/-- TextEqualFold is true if message isn't nil, and its text equal fold (more general form
of case-insensitivity equal) to specified text. -/
def TextEqualFold (simpleFold : Char → Char) (text : Str) : Predicate :=
  fun update => textEqualFold simpleFold update.Message text

def textContains (message : Option Message) (text : Str) : Option Bool :=
  goAnd (some message.isSome) ((field message Message.Text).map (fun t => Contains t text))

/-- TextContains is true if message isn't nil, and its text contains specified text. -/
def TextContains (text : Str) : Predicate :=
  fun update => textContains update.Message text

def textPrefix (message : Option Message) (pre : Str) : Option Bool :=
  goAnd (some message.isSome) ((field message Message.Text).map (fun t => HasPrefix t pre))

/-- TextPrefix is true if message isn't nil, and its text has specified prefix. -/
def TextPrefix (pre : Str) : Predicate :=
  fun update => textPrefix update.Message pre

def textSuffix (message : Option Message) (suf : Str) : Option Bool :=
  goAnd (some message.isSome) ((field message Message.Text).map (fun t => HasSuffix t suf))

/-- TextSuffix is true if message isn't nil, and its text has specified suffix. -/
def TextSuffix (suf : Str) : Predicate :=
  fun update => textSuffix update.Message suf

/-- The call `pattern.MatchString(text)` through the pointer `pattern`: a fault when the
pointer is nil or the text could not be read. -/
def matchString (pattern : Option Regexp) (text : Option Str) : Option Bool :=
  match pattern, text with
  | some re, some t => some (re.MatchString t)
  | _, _ => none

def textMatches (message : Option Message) (pattern : Option Regexp) : Option Bool :=
  goAnd (some message.isSome) (matchString pattern (field message Message.Text))

/-- TextMatches is true if message isn't nil, and its text matches specified regexp. -/
def TextMatches (pattern : Option Regexp) : Predicate :=
  fun update => textMatches update.Message pattern

/-! ## Command predicates -/

/-- AnyCommand is true if message isn't nil, and it matches to command regexp. -/
def AnyCommand : Predicate :=
  fun update =>
    goAnd (some update.Message.isSome)
      (matchString (some CommandRegexp) (field update.Message Message.Text))

/-- CommandEqual is true if message isn't nil, and it contains specified command. -/
def CommandEqual (simpleFold : Char → Char) (command : Str) : Predicate :=
  fun update =>
    if update.Message.isNone then some false
    else
      (field update.Message Message.Text).bind fun text =>
        let groups := CommandRegexp.FindStringSubmatch text
        if groups.length ≠ CommandMatchGroupsLen then some false
        else groups[1]?.map (fun m1 => EqualFold simpleFold m1 command)

/-- CommandEqualArgc is true if message isn't nil, and it contains specified command with
number of args. -/
def CommandEqualArgc (simpleFold : Char → Char) (command : Str) (argc : Int) : Predicate :=
  fun update =>
    if update.Message.isNone then some false
    else
      (field update.Message Message.Text).bind fun text =>
        let groups := CommandRegexp.FindStringSubmatch text
        if groups.length ≠ CommandMatchGroupsLen then some false
        else
          goAnd (groups[1]?.map (fun m1 => EqualFold simpleFold m1 command))
            (goOr
              (goAnd (some (argc == 0)) (groups[2]?.map (fun m2 => m2 == [])))
              (groups[2]?.map (fun m2 => ((Split m2 ' ').length : Int) == argc)))

/-- CommandEqualArgv is true if message isn't nil, and it contains specified command and
args. -/
def CommandEqualArgv (simpleFold : Char → Char) (command : Str) (argv : List Str) : Predicate :=
  fun update =>
    if update.Message.isNone then some false
    else
      (field update.Message Message.Text).bind fun text =>
        let groups := CommandRegexp.FindStringSubmatch text
        if groups.length ≠ CommandMatchGroupsLen then some false
        else
          goAnd (groups[1]?.map (fun m1 => EqualFold simpleFold m1 command))
            (goOr
              (goAnd (some (argv.length == 0)) (groups[2]?.map (fun m2 => m2 == [])))
              (groups[2]?.map (fun m2 => m2 == Join argv ' ')))

/-! ## Edited message, channel post and edited channel post predicates -/

/-- AnyEditedMessage is true if edited message isn't nil. -/
def AnyEditedMessage : Predicate :=
  fun update => anyMassage update.EditedMessage

/-- AnyEditedMessageWithText is true if edited message isn't nil and its text not empty. -/
def AnyEditedMessageWithText : Predicate :=
  fun update => anyMassageWithText update.EditedMessage

def EditedTextEqual (text : Str) : Predicate :=
  fun update => textEqual update.EditedMessage text

def EditedTextEqualFold (simpleFold : Char → Char) (text : Str) : Predicate :=
  fun update => textEqualFold simpleFold update.EditedMessage text

def EditedTextContains (text : Str) : Predicate :=
  fun update => textContains update.EditedMessage text

def EditedTextPrefix (pre : Str) : Predicate :=
  fun update => textPrefix update.EditedMessage pre

def EditedTextSuffix (suf : Str) : Predicate :=
  fun update => textSuffix update.EditedMessage suf

def EditedTextMatches (pattern : Option Regexp) : Predicate :=
  fun update => textMatches update.EditedMessage pattern

/-- AnyChannelPost is true if channel post isn't nil. -/
def AnyChannelPost : Predicate :=
  fun update => anyMassage update.ChannelPost

/-- AnyChannelPostWithText is true if channel post isn't nil and its text not empty. -/
def AnyChannelPostWithText : Predicate :=
  fun update => anyMassageWithText update.ChannelPost

def PostTextEqual (text : Str) : Predicate :=
  fun update => textEqual update.ChannelPost text

def PostTextEqualFold (simpleFold : Char → Char) (text : Str) : Predicate :=
  fun update => textEqualFold simpleFold update.ChannelPost text

def PostTextContains (text : Str) : Predicate :=
  fun update => textContains update.ChannelPost text

def PostTextPrefix (pre : Str) : Predicate :=
  fun update => textPrefix update.ChannelPost pre

def PostTextSuffix (suf : Str) : Predicate :=
  fun update => textSuffix update.ChannelPost suf

def PostTextMatches (pattern : Option Regexp) : Predicate :=
  fun update => textMatches update.ChannelPost pattern

/-- AnyEditedChannelPost is true if edited channel post isn't nil. -/
def AnyEditedChannelPost : Predicate :=
  fun update => anyMassage update.EditedChannelPost

/-- AnyEditedChannelPostWithText is true if edited channel post isn't nil and its text not
empty. -/
def AnyEditedChannelPostWithText : Predicate :=
  fun update => anyMassageWithText update.EditedChannelPost

def EditedPostTextEqual (text : Str) : Predicate :=
  fun update => textEqual update.EditedChannelPost text

def EditedPostTextEqualFold (simpleFold : Char → Char) (text : Str) : Predicate :=
  fun update => textEqualFold simpleFold update.EditedChannelPost text

def EditedPostTextContains (text : Str) : Predicate :=
  fun update => textContains update.EditedChannelPost text

def EditedPostTextPrefix (pre : Str) : Predicate :=
  fun update => textPrefix update.EditedChannelPost pre

def EditedPostTextSuffix (suf : Str) : Predicate :=
  fun update => textSuffix update.EditedChannelPost suf

def EditedPostTextMatches (pattern : Option Regexp) : Predicate :=
  fun update => textMatches update.EditedChannelPost pattern

/-! ## Inline query and callback query predicates -/

/-- AnyInlineQuery is true if inline query isn't nil. -/
def AnyInlineQuery : Predicate :=
  fun update => some update.InlineQuery.isSome

def InlineQueryEqual (text : Str) : Predicate :=
  fun update =>
    goAnd (some update.InlineQuery.isSome)
      ((field update.InlineQuery InlineQuery.Query).map (fun q => q == text))

def InlineQueryEqualFold (simpleFold : Char → Char) (text : Str) : Predicate :=
  fun update =>
    goAnd (some update.InlineQuery.isSome)
      ((field update.InlineQuery InlineQuery.Query).map (fun q => EqualFold simpleFold q text))

def InlineQueryContains (text : Str) : Predicate :=
  fun update =>
    goAnd (some update.InlineQuery.isSome)
      ((field update.InlineQuery InlineQuery.Query).map (fun q => Contains q text))

def InlineQueryPrefix (pre : Str) : Predicate :=
  fun update =>
    goAnd (some update.InlineQuery.isSome)
      ((field update.InlineQuery InlineQuery.Query).map (fun q => HasPrefix q pre))

def InlineQuerySuffix (suf : Str) : Predicate :=
  fun update =>
    goAnd (some update.InlineQuery.isSome)
      ((field update.InlineQuery InlineQuery.Query).map (fun q => HasSuffix q suf))

def InlineQueryMatches (pattern : Option Regexp) : Predicate :=
  fun update =>
    goAnd (some update.InlineQuery.isSome)
      (matchString pattern (field update.InlineQuery InlineQuery.Query))

/-- AnyChosenInlineResult is true if chosen inline result isn't nil. -/
def AnyChosenInlineResult : Predicate :=
  fun update => some update.ChosenInlineResult.isSome

/-- AnyCallbackQuery is true if callback query isn't nil. -/
def AnyCallbackQuery : Predicate :=
  fun update => some update.CallbackQuery.isSome

/-- AnyCallbackQueryWithMessage is true if callback query and its message isn't nil. -/
def AnyCallbackQueryWithMessage : Predicate :=
  fun update =>
    goAnd (some update.CallbackQuery.isSome)
      ((field update.CallbackQuery CallbackQuery.Message).map (fun m => m.isSome))

def CallbackDataEqual (text : Str) : Predicate :=
  fun update =>
    goAnd (some update.CallbackQuery.isSome)
      ((field update.CallbackQuery CallbackQuery.Data).map (fun d => d == text))

def CallbackDataEqualFold (simpleFold : Char → Char) (text : Str) : Predicate :=
  fun update =>
    goAnd (some update.CallbackQuery.isSome)
      ((field update.CallbackQuery CallbackQuery.Data).map (fun d => EqualFold simpleFold d text))

def CallbackDataContains (text : Str) : Predicate :=
  fun update =>
    goAnd (some update.CallbackQuery.isSome)
      ((field update.CallbackQuery CallbackQuery.Data).map (fun d => Contains d text))

def CallbackDataPrefix (pre : Str) : Predicate :=
  fun update =>
    goAnd (some update.CallbackQuery.isSome)
      ((field update.CallbackQuery CallbackQuery.Data).map (fun d => HasPrefix d pre))

def CallbackDataSuffix (suf : Str) : Predicate :=
  fun update =>
    goAnd (some update.CallbackQuery.isSome)
      ((field update.CallbackQuery CallbackQuery.Data).map (fun d => HasSuffix d suf))

def CallbackDataMatches (pattern : Option Regexp) : Predicate :=
  fun update =>
    goAnd (some update.CallbackQuery.isSome)
      (matchString pattern (field update.CallbackQuery CallbackQuery.Data))

/-! ## Direct reading of a command text -/

/-- The argument tail of a command text: what follows the name, less one leading space. -/
def dropOneSpace : Str → Str
  | [] => []
  | c :: cs => if c = ' ' then cs else c :: cs

/-- The reading of a command text that the pattern performs, stated directly: a slash,
the maximal run of word characters (not empty), and a remainder without a newline, of
which one leading space is dropped. -/
def commandParts : Str → Option (Str × Str)
  | [] => none
  | c :: s =>
    if c = '/' ∧ s.takeWhile isWordChar ≠ [] ∧ '\n' ∉ s.dropWhile isWordChar then
      some (s.takeWhile isWordChar, dropOneSpace (s.dropWhile isWordChar))
    else none

/-! ## Vocabulary of the statements -/

/-- The Go expression `e1 || e2 || … || en`, which associates to the left; with no
operand it is `false`. -/
def orChain : List (Option Bool) → Option Bool
  | [] => some false
  | e :: es => es.foldl goOr e

/-- The predicate of a pure boolean test: it never faults. -/
def total (q : Update → Bool) : Predicate :=
  fun update => some (q update)

/-- The six text-bearing slots of an update. -/
inductive TextSlot where
  | message
  | editedMessage
  | channelPost
  | editedChannelPost
  | inlineQuery
  | callbackData
  deriving DecidableEq, Repr

/-- The six families of text matchers, each with its comparison target. -/
inductive TextTest where
  | equal (text : Str)
  | equalFold (text : Str)
  | contains (text : Str)
  | hasPrefix (pre : Str)
  | hasSuffix (suf : Str)
  | matchesRe (pattern : Option Regexp)

/-- The slot's pointer in the update is nil. -/
def TextSlot.absent : TextSlot → Update → Bool
  | .message, u => u.Message.isNone
  | .editedMessage, u => u.EditedMessage.isNone
  | .channelPost, u => u.ChannelPost.isNone
  | .editedChannelPost, u => u.EditedChannelPost.isNone
  | .inlineQuery, u => u.InlineQuery.isNone
  | .callbackData, u => u.CallbackQuery.isNone

/-- The table of the thirty-six text matchers of the source, by slot and family. -/
def textPredicate (simpleFold : Char → Char) : TextSlot → TextTest → Predicate
  | .message, .equal t => TextEqual t
  | .message, .equalFold t => TextEqualFold simpleFold t
  | .message, .contains t => TextContains t
  | .message, .hasPrefix t => TextPrefix t
  | .message, .hasSuffix t => TextSuffix t
  | .message, .matchesRe p => TextMatches p
  | .editedMessage, .equal t => EditedTextEqual t
  | .editedMessage, .equalFold t => EditedTextEqualFold simpleFold t
  | .editedMessage, .contains t => EditedTextContains t
  | .editedMessage, .hasPrefix t => EditedTextPrefix t
  | .editedMessage, .hasSuffix t => EditedTextSuffix t
  | .editedMessage, .matchesRe p => EditedTextMatches p
  | .channelPost, .equal t => PostTextEqual t
  | .channelPost, .equalFold t => PostTextEqualFold simpleFold t
  | .channelPost, .contains t => PostTextContains t
  | .channelPost, .hasPrefix t => PostTextPrefix t
  | .channelPost, .hasSuffix t => PostTextSuffix t
  | .channelPost, .matchesRe p => PostTextMatches p
  | .editedChannelPost, .equal t => EditedPostTextEqual t
  | .editedChannelPost, .equalFold t => EditedPostTextEqualFold simpleFold t
  | .editedChannelPost, .contains t => EditedPostTextContains t
  | .editedChannelPost, .hasPrefix t => EditedPostTextPrefix t
  | .editedChannelPost, .hasSuffix t => EditedPostTextSuffix t
  | .editedChannelPost, .matchesRe p => EditedPostTextMatches p
  | .inlineQuery, .equal t => InlineQueryEqual t
  | .inlineQuery, .equalFold t => InlineQueryEqualFold simpleFold t
  | .inlineQuery, .contains t => InlineQueryContains t
  | .inlineQuery, .hasPrefix t => InlineQueryPrefix t
  | .inlineQuery, .hasSuffix t => InlineQuerySuffix t
  | .inlineQuery, .matchesRe p => InlineQueryMatches p
  | .callbackData, .equal t => CallbackDataEqual t
  | .callbackData, .equalFold t => CallbackDataEqualFold simpleFold t
  | .callbackData, .contains t => CallbackDataContains t
  | .callbackData, .hasPrefix t => CallbackDataPrefix t
  | .callbackData, .hasSuffix t => CallbackDataSuffix t
  | .callbackData, .matchesRe p => CallbackDataMatches p

/-- Two characters are the same up to ASCII letter case: equal, or a capital `A`..`Z`
and its small letter. -/
def sameLetter (a b : Char) : Bool :=
  a == b || (65 ≤ a.toNat && a.toNat ≤ 90 && b.toNat == a.toNat + 32) ||
    (65 ≤ b.toNat && b.toNat ≤ 90 && a.toNat == b.toNat + 32)

/-- The text `s` is an upper/lower-case variant of `t`. -/
def caseVariant : Str → Str → Bool
  | [], [] => true
  | a :: s, b :: t => sameLetter a b && caseVariant s t
  | _, _ => false

/-- The command shape as the specification words it: a slash, one or more word
characters forming the name, then either the end of the text or a single space followed
by the argument remainder. -/
def FixedCommandShape (text : Str) : Prop :=
  ∃ name args : Str, name ≠ [] ∧ (∀ c ∈ name, isWordChar c = true) ∧
    (text = '/' :: name ∨ text = '/' :: (name ++ ' ' :: args))

/-- An update that carries only a message with the given text. -/
def messageUpdate (text : Str) : Update :=
  { Message := some { Text := text } }

/-- What a text matcher of the family computes on a text `s`, as the specification
names the families: equality, case-fold equality, contains, prefix, suffix, regular
expression match. -/
def TextTest.eval (simpleFold : Char → Char) : TextTest → Str → Option Bool
  | .equal t, s => some (s == t)
  | .equalFold t, s => some (EqualFold simpleFold s t)
  | .contains t, s => some (Contains s t)
  | .hasPrefix t, s => some (HasPrefix s t)
  | .hasSuffix t, s => some (HasSuffix s t)
  | .matchesRe p, s => matchString p (some s)

/-- The text a slot holds when it is populated: `Text` of the four message slots,
`Query` of the inline query, `Data` of the callback query. -/
def TextSlot.text : TextSlot → Update → Option Str
  | .message, u => u.Message.map Message.Text
  | .editedMessage, u => u.EditedMessage.map Message.Text
  | .channelPost, u => u.ChannelPost.map Message.Text
  | .editedChannelPost, u => u.EditedChannelPost.map Message.Text
  | .inlineQuery, u => u.InlineQuery.map InlineQuery.Query
  | .callbackData, u => u.CallbackQuery.map CallbackQuery.Data

/-! ## The example program `examples/handler_custom` -/

/-- Number of bytes of the UTF-8 encoding of a code point. -/
def runeLen (c : Char) : Nat :=
  if c.toNat < 128 then 1 else if c.toNat < 2048 then 2 else if c.toNat < 65536 then 3 else 4

/-- Go `len(s)` of a string: its number of bytes. -/
def len (s : Str) : Nat :=
  (s.map runeLen).sum

/-- The custom predicate of the example, `len(update.Message.Text) > 7`: it reads the
message without testing the pointer, so it faults on an update without a message. -/
def textLongerThan7 : Predicate :=
  fun update => (field update.Message Message.Text).map (fun text => decide (len text > 7))

/-- Modelled from the spec: the guard of one registration (the `Handle` method is
declared outside the files at hand) is the conjunction of the predicates passed to it,
evaluated in order and cut short at the first false one; with no predicate it is true. -/
def registrationGuard : List Predicate → Predicate
  | [], _ => some true
  | p :: ps, update => goAnd (p update) (registrationGuard ps update)

/-- Modelled from the spec: the dispatch of one update by the handler loop (the `Start`
method is declared outside the files at hand): the guards are evaluated in registration
order and the first one that is true selects its handler, by index; an update that
matches no guard is dropped (`some none`). -/
def dispatch : List (List Predicate) → Update → Option (Option Nat)
  | [], _ => some none
  | g :: gs, update =>
    match registrationGuard g update with
    | none => none
    | some true => some (some 0)
    | some false => (dispatch gs update).map (fun r => r.map (fun i => i + 1))

/-- The guard of the first handler of the example. -/
def guardH1 : List Predicate :=
  [Union [Not AnyMessage, TextEqual "Hmm?".toList]]

/-- The guard of the second handler of the example. -/
def guardH2 : List Predicate :=
  [AnyMessage, textLongerThan7]

/-- The guard of the third handler of the example. -/
def guardH3 (simpleFold : Char → Char) : List Predicate :=
  [Union [CommandEqualArgc simpleFold "start".toList 0,
    CommandEqualArgv simpleFold "how".toList ["works".toList],
    CommandEqual simpleFold "help".toList]]

/-- The registrations of the example `main`, in order: handlers 0, 1 and 2 are the
H1, H2 and H3 of the specification. -/
def exampleGuards (simpleFold : Char → Char) : List (List Predicate) :=
  [guardH1, guardH2, guardH3 simpleFold]

end Telego

/-! ## Lemmas on the matcher -/

namespace Telego

theorem run_charClass (p : Char → Bool) : Regexp.run (.charClass p) = stepChar p := by
  funext t k
  simp [Regexp.run]

theorem run_anyCharNotNL : Regexp.run .anyCharNotNL = stepChar (fun x => x != '\n') := by
  funext t k
  simp [Regexp.run]

/-- A greedy loop over a character class takes the whole maximal run of the class when
the continuation succeeds after it. -/
theorem starLoop_stepChar_greedy (p : Char → Bool) (k : Thread → Option Thread)
    (cap : List (Nat × Str)) (post : Str) (r : Thread)
    (hpost : ∀ c, post.head? = some c → p c = false) :
    ∀ (pre : Str) (pos n : Nat), (∀ c ∈ pre, p c = true) → pre.length + post.length ≤ n →
      k { pos := pos + pre.length, rest := post, cap := cap } = some r →
      starLoop (stepChar p) k n { pos := pos, rest := pre ++ post, cap := cap } = some r := by
  intro pre
  induction pre with
  | nil =>
    intro pos n _ _ hk
    simp only [List.length_nil, Nat.add_zero, List.nil_append] at hk ⊢
    cases n with
    | zero => simpa [starLoop] using hk
    | succ n =>
      cases post with
      | nil => simpa [starLoop, stepChar] using hk
      | cons c cs =>
        have hc : p c = false := hpost c rfl
        simpa [starLoop, stepChar, hc] using hk
  | cons x xs ih =>
    intro pos n hall hn hk
    have hx : p x = true := hall x (List.mem_cons_self _ _)
    have hxs : ∀ c ∈ xs, p c = true := fun c hc => hall c (List.mem_cons_of_mem _ hc)
    cases n with
    | zero => simp at hn
    | succ n =>
      have hn1 : xs.length + post.length ≤ n := by
        simp only [List.length_cons] at hn
        omega
      have hk1 : k { pos := pos + 1 + xs.length, rest := post, cap := cap } = some r := by
        have : pos + 1 + xs.length = pos + (x :: xs).length := by
          simp only [List.length_cons]
          omega
        rw [this]
        exact hk
      have h := ih (pos + 1) n hxs hn1 hk1
      simp [starLoop, stepChar, hx, h]

/-- A loop over a class without the newline never gets past a newline: when the
continuation fails on every thread that still has a newline ahead, so does the loop. -/
theorem starLoop_stepChar_none (p : Char → Bool) (k : Thread → Option Thread)
    (hp : p '\n' = false) (hk : ∀ t : Thread, '\n' ∈ t.rest → k t = none) :
    ∀ (n : Nat) (t : Thread), '\n' ∈ t.rest → starLoop (stepChar p) k n t = none := by
  intro n
  induction n with
  | zero =>
    intro t ht
    simpa [starLoop] using hk t ht
  | succ n ih =>
    intro t ht
    obtain ⟨pos, rest, cap⟩ := t
    cases rest with
    | nil => simp at ht
    | cons x xs =>
      have hkt := hk { pos := pos, rest := x :: xs, cap := cap } ht
      by_cases hx : p x = true
      · have hne : x ≠ '\n' := by
          intro h
          rw [h, hp] at hx
          exact Bool.noConfusion hx
        have hmem : '\n' ∈ xs := by
          simp only [List.mem_cons] at ht
          rcases ht with h | h
          · exact absurd h.symm hne
          · exact h
        have h := ih { pos := pos + 1, rest := xs, cap := cap } hmem
        simp [starLoop, stepChar, hx, h, hkt]
      · simp [starLoop, stepChar, hx, hkt]

theorem dotStar_end_some (pos : Nat) (rest : Str) (cap : List (Nat × Str))
    (h : '\n' ∉ rest) :
    Regexp.run (.concat (.capture 2 (.star .anyCharNotNL)) .endText)
        { pos := pos, rest := rest, cap := cap } some
      = some { pos := pos + rest.length, rest := [], cap := (2, rest) :: cap } := by
  simp only [Regexp.run, run_anyCharNotNL]
  have key := starLoop_stepChar_greedy (fun x => x != '\n')
    (fun t1 : Thread => if t1.rest.isEmpty = true then
      some { pos := t1.pos, rest := t1.rest, cap := (2, rest.take (t1.pos - pos)) :: t1.cap }
      else none)
    cap [] { pos := pos + rest.length, rest := [], cap := (2, rest) :: cap }
    (by simp) rest pos rest.length
    (by
      intro c hc
      have : c ≠ '\n' := fun e => h (e ▸ hc)
      simpa using this)
    (by simp) (by simp)
  simpa using key

theorem dotStar_end_none (t : Thread) (k : Thread → Option Thread) (h : '\n' ∈ t.rest) :
    Regexp.run (.concat (.capture 2 (.star .anyCharNotNL)) .endText) t k = none := by
  simp only [Regexp.run, run_anyCharNotNL]
  apply starLoop_stepChar_none
  · simp
  · intro t1 h1
    cases hr : t1.rest with
    | nil => simp [hr] at h1
    | cons x xs => simp
  · exact h

theorem run_concat (a b : Regexp) (t : Thread) (k : Thread → Option Thread) :
    Regexp.run (.concat a b) t k = Regexp.run a t (fun t1 => Regexp.run b t1 k) := by
  rw [Regexp.run]

theorem run_quest (a : Regexp) (t : Thread) (k : Thread → Option Thread) :
    Regexp.run (.quest a) t k =
      match Regexp.run a t k with
      | some r => some r
      | none => k t := by
  rw [Regexp.run]

theorem run_literal (c : Char) (t : Thread) (k : Thread → Option Thread) :
    Regexp.run (.literal c) t k = stepChar (fun x => x == c) t k := by
  rw [Regexp.run]

theorem commandTail_some (pos : Nat) (rest : Str) (cap : List (Nat × Str))
    (h : '\n' ∉ rest) :
    Regexp.run (.concat (.quest (.literal ' '))
        (.concat (.capture 2 (.star .anyCharNotNL)) .endText))
        { pos := pos, rest := rest, cap := cap } some
      = some { pos := pos + rest.length, rest := [], cap := (2, dropOneSpace rest) :: cap } := by
  rw [run_concat, run_quest, run_literal]
  cases rest with
  | nil =>
    have h0 := dotStar_end_some pos [] cap (by simp)
    simp only [stepChar, h0, dropOneSpace]
  | cons c cs =>
    by_cases hc : c = ' '
    · subst hc
      have hcs : '\n' ∉ cs := fun hm => h (List.mem_cons_of_mem _ hm)
      have h0 := dotStar_end_some (pos + 1) cs cap hcs
      have hlen : pos + 1 + cs.length = pos + (' ' :: cs).length := by
        simp only [List.length_cons]
        omega
      rw [hlen] at h0
      simp [stepChar, h0, dropOneSpace]
    · have h0 := dotStar_end_some pos (c :: cs) cap h
      simp [stepChar, h0, dropOneSpace, hc]

theorem commandTail_none (t : Thread) (k : Thread → Option Thread) (h : '\n' ∈ t.rest) :
    Regexp.run (.concat (.quest (.literal ' '))
        (.concat (.capture 2 (.star .anyCharNotNL)) .endText)) t k = none := by
  rw [run_concat, run_quest, run_literal]
  have h0 := dotStar_end_none t k h
  obtain ⟨pos, rest, cap⟩ := t
  cases rest with
  | nil => simp at h
  | cons c cs =>
    by_cases hc : c = ' '
    · subst hc
      have hcs : '\n' ∈ cs := by
        simp only [List.mem_cons] at h
        rcases h with h | h
        · exact absurd h (by decide)
        · exact h
      have h1 := dotStar_end_none { pos := pos + 1, rest := cs, cap := cap } k hcs
      simp [stepChar, h0, h1]
    · simp [stepChar, h0, hc]

theorem takeWhile_all (p : Char → Bool) (s : Str) : ∀ c ∈ s.takeWhile p, p c = true := by
  induction s with
  | nil => simp
  | cons x xs ih =>
    intro c hc
    by_cases hx : p x = true
    · simp only [List.takeWhile_cons, hx, if_true, List.mem_cons] at hc
      rcases hc with h | h
      · rw [h]; exact hx
      · exact ih c h
    · simp [List.takeWhile_cons, hx] at hc

theorem dropWhile_head (p : Char → Bool) (s : Str) :
    ∀ c, (s.dropWhile p).head? = some c → p c = false := by
  induction s with
  | nil => simp
  | cons x xs ih =>
    intro c hc
    by_cases hx : p x = true
    · simp only [List.dropWhile_cons, hx, if_true] at hc
      exact ih c hc
    · simp only [List.dropWhile_cons, hx] at hc
      simp only [Bool.false_eq_true, if_false, List.head?_cons, Option.some.injEq] at hc
      rw [← hc]
      simpa using hx

theorem run_beginText (t : Thread) (k : Thread → Option Thread) :
    Regexp.run .beginText t k = if t.pos = 0 then k t else none := by
  rw [Regexp.run]

theorem run_capture (idx : Nat) (a : Regexp) (t : Thread) (k : Thread → Option Thread) :
    Regexp.run (.capture idx a) t k =
      Regexp.run a t
        (fun t1 => k { t1 with cap := (idx, t.rest.take (t1.pos - t.pos)) :: t1.cap }) := by
  rw [Regexp.run]

theorem run_plus (a : Regexp) (t : Thread) (k : Thread → Option Thread) :
    Regexp.run (.plus a) t k =
      Regexp.run a t (fun t1 => starLoop (Regexp.run a) k t1.rest.length t1) := by
  rw [Regexp.run]

/-- The matcher run on the command pattern from the start of a text computes exactly
`commandParts`. -/
theorem run_command (s : Str) :
    Regexp.run CommandRegexp { pos := 0, rest := s, cap := [] } some =
      match commandParts s with
      | none => none
      | some (name, tail) =>
        some { pos := s.length, rest := [], cap := [(2, tail), (1, name)] } := by
  unfold CommandRegexp
  rw [run_concat, run_beginText, run_concat, run_literal]
  cases s with
  | nil => simp [stepChar, commandParts]
  | cons c s1 =>
    by_cases hc : c = '/'
    swap
    · simp [stepChar, commandParts, hc]
    subst hc
    have hall := takeWhile_all isWordChar s1
    have hhead := dropWhile_head isWordChar s1
    have hsplit := (List.takeWhile_append_dropWhile isWordChar s1).symm
    simp only [commandParts, stepChar, beq_self_eq_true, if_true, true_and]
    rw [run_concat, run_capture, run_plus, run_charClass]
    generalize s1.takeWhile isWordChar = name at *
    generalize s1.dropWhile isWordChar = rest at *
    subst hsplit
    cases name with
    | nil =>
      cases rest with
      | nil => simp [stepChar]
      | cons y ys =>
        have hy : isWordChar y = false := hhead y rfl
        simp [stepChar, hy]
    | cons x name1 =>
      have hx : isWordChar x = true := hall x (List.mem_cons_self _ _)
      have hall1 : ∀ c ∈ name1, isWordChar c = true :=
        fun c h => hall c (List.mem_cons_of_mem _ h)
      by_cases hnl : '\n' ∈ rest
      · have hnone := starLoop_stepChar_none isWordChar
          (fun t2 : Thread => Regexp.run (.concat (.quest (.literal ' '))
            (.concat (.capture 2 (.star .anyCharNotNL)) .endText))
            { pos := t2.pos, rest := t2.rest,
              cap := (1, (x :: name1 ++ rest).take (t2.pos - 1)) :: t2.cap } some)
          (by decide)
          (fun t2 h2 => commandTail_none _ _ h2)
          (name1 ++ rest).length { pos := 2, rest := name1 ++ rest, cap := [] }
          (List.mem_append_right _ hnl)
        simpa [stepChar, hx, hnl] using hnone
      · have hsome := starLoop_stepChar_greedy isWordChar
          (fun t2 : Thread => Regexp.run (.concat (.quest (.literal ' '))
            (.concat (.capture 2 (.star .anyCharNotNL)) .endText))
            { pos := t2.pos, rest := t2.rest,
              cap := (1, (x :: name1 ++ rest).take (t2.pos - 1)) :: t2.cap } some)
          [] rest
          { pos := ('/' :: (x :: name1 ++ rest)).length, rest := [],
            cap := [(2, dropOneSpace rest), (1, x :: name1)] }
          hhead name1 2 (name1 ++ rest).length hall1 (by simp)
          (by
            have h := commandTail_some (2 + name1.length) rest
              [(1, (x :: name1 ++ rest).take (2 + name1.length - 1))] hnl
            have htake : (x :: name1 ++ rest).take (2 + name1.length - 1) = x :: name1 := by
              have : 2 + name1.length - 1 = (x :: name1).length := by
                simp only [List.length_cons]
                omega
              rw [this]
              exact List.take_left' rfl
            have hlen : 2 + name1.length + rest.length
                = ('/' :: (x :: name1 ++ rest)).length := by
              simp only [List.length_cons, List.length_append]
              omega
            rw [htake, hlen] at h
            rw [← h]
            simp only [htake])
        simpa [stepChar, hx, hnl, Nat.add_assoc] using hsome

theorem searchFrom_command_pos (s : Str) :
    ∀ pos : Nat, 0 < pos → CommandRegexp.searchFrom pos s = none := by
  induction s with
  | nil =>
    intro pos hpos
    have h : pos ≠ 0 := Nat.pos_iff_ne_zero.mp hpos
    simp [Regexp.searchFrom, CommandRegexp, run_concat, run_beginText, h]
  | cons c cs ih =>
    intro pos hpos
    have h : pos ≠ 0 := Nat.pos_iff_ne_zero.mp hpos
    have h1 := ih (pos + 1) (Nat.succ_pos _)
    simp only [Regexp.searchFrom, h1]
    simp [CommandRegexp, run_concat, run_beginText, h]

theorem searchFrom_command (s : Str) :
    CommandRegexp.searchFrom 0 s =
      match commandParts s with
      | none => none
      | some (name, tail) =>
        some (0, { pos := s.length, rest := [], cap := [(2, tail), (1, name)] }) := by
  cases s with
  | nil =>
    simp only [Regexp.searchFrom, run_command]
    simp [commandParts]
  | cons c cs =>
    simp only [Regexp.searchFrom, run_command, searchFrom_command_pos cs 1 Nat.one_pos]
    cases commandParts (c :: cs) with
    | none => rfl
    | some p => rfl

/-- What `FindStringSubmatch` returns for the command pattern: nothing when the text is
not a command, else the text, the name and the argument tail. -/
theorem findStringSubmatch_command (s : Str) :
    CommandRegexp.FindStringSubmatch s =
      match commandParts s with
      | none => []
      | some (name, tail) => [s, name, tail] := by
  unfold Regexp.FindStringSubmatch
  rw [searchFrom_command]
  cases commandParts s with
  | none => rfl
  | some p =>
    obtain ⟨name, tail⟩ := p
    have hn : CommandRegexp.numSubexp = 2 := by decide
    simp [hn, List.range_succ, Thread.group, List.lookup]

theorem matchString_command (s : Str) :
    CommandRegexp.MatchString s = (commandParts s).isSome := by
  unfold Regexp.MatchString
  rw [searchFrom_command]
  cases commandParts s with
  | none => rfl
  | some p => rfl

theorem anyCommand_eq (u : Update) :
    AnyCommand u = some (match u.Message with
      | none => false
      | some m => (commandParts m.Text).isSome) := by
  unfold AnyCommand
  cases u.Message with
  | none => rfl
  | some m => simp [goAnd, field, matchString, matchString_command]

theorem commandEqual_eq (simpleFold : Char → Char) (command : Str) (u : Update) :
    CommandEqual simpleFold command u = some (match u.Message with
      | none => false
      | some m =>
        match commandParts m.Text with
        | none => false
        | some (name, _) => EqualFold simpleFold name command) := by
  unfold CommandEqual
  cases u.Message with
  | none => rfl
  | some m =>
    simp only [Option.isNone_some, field, Option.some_bind, findStringSubmatch_command]
    cases commandParts m.Text with
    | none => simp [CommandMatchGroupsLen]
    | some p => simp [CommandMatchGroupsLen]

theorem commandEqualArgc_eq (simpleFold : Char → Char) (command : Str) (argc : Int)
    (u : Update) :
    CommandEqualArgc simpleFold command argc u = some (match u.Message with
      | none => false
      | some m =>
        match commandParts m.Text with
        | none => false
        | some (name, tail) =>
          EqualFold simpleFold name command &&
            ((argc == 0 && tail == []) || ((Split tail ' ').length : Int) == argc)) := by
  unfold CommandEqualArgc
  cases u.Message with
  | none => rfl
  | some m =>
    simp only [Option.isNone_some, field, Option.some_bind, findStringSubmatch_command]
    cases commandParts m.Text with
    | none => simp [CommandMatchGroupsLen]
    | some p =>
      obtain ⟨name, tail⟩ := p
      cases h1 : EqualFold simpleFold name command <;>
        cases h2 : (argc == 0) <;>
        cases tail <;>
        simp [CommandMatchGroupsLen, goAnd, goOr, h1, h2]

theorem commandEqualArgv_eq (simpleFold : Char → Char) (command : Str) (argv : List Str)
    (u : Update) :
    CommandEqualArgv simpleFold command argv u = some (match u.Message with
      | none => false
      | some m =>
        match commandParts m.Text with
        | none => false
        | some (name, tail) =>
          EqualFold simpleFold name command &&
            ((argv.length == 0 && tail == []) || tail == Join argv ' ')) := by
  unfold CommandEqualArgv
  cases u.Message with
  | none => rfl
  | some m =>
    simp only [Option.isNone_some, field, Option.some_bind, findStringSubmatch_command]
    cases commandParts m.Text with
    | none => simp [CommandMatchGroupsLen]
    | some p =>
      obtain ⟨name, tail⟩ := p
      cases h1 : EqualFold simpleFold name command <;>
        cases h2 : (argv.length == 0) <;>
        cases tail <;>
        simp [CommandMatchGroupsLen, goAnd, goOr, h1, h2]

/-! ## The claims -/

theorem goOr_assoc (a b c : Option Bool) : goOr (goOr a b) c = goOr a (goOr b c) := by
  cases a with
  | none => rfl
  | some x => cases x <;> rfl

theorem foldl_goOr (es : List (Option Bool)) :
    ∀ e : Option Bool, es.foldl goOr e = goOr e (orChain es) := by
  induction es with
  | nil =>
    intro e
    cases e with
    | none => rfl
    | some x => cases x <;> rfl
  | cons x xs ih =>
    intro e
    simp only [List.foldl_cons, orChain]
    rw [ih (goOr e x), ih x, goOr_assoc]

theorem unionLoop_eq_orChain (ps : List Predicate) (u : Update) :
    unionLoop ps u = orChain (ps.map (fun p => p u)) := by
  induction ps with
  | nil => rfl
  | cons p ps ih =>
    simp only [unionLoop, List.map_cons, orChain]
    rw [foldl_goOr, ← ih]
    cases p u with
    | none => rfl
    | some b => cases b <;> rfl

theorem unionLoop_total (qs : List (Update → Bool)) (u : Update) :
    unionLoop (qs.map total) u = some (qs.any (fun q => q u)) := by
  induction qs with
  | nil => rfl
  | cons q qs ih =>
    simp only [List.map_cons, unionLoop, total, List.any_cons]
    cases h : q u with
    | true => simp
    | false => simpa [total] using ih

/-- C1: for every list of predicates and every update, `Union(p1,…,pn)(u)` is the value
of the Go expression `p1(u) || p2(u) || … || pn(u)` (faults included); for pure
predicates it is the disjunction of their values; and `Union()` is false on every
update. -/
theorem C1_union_is_disjunction :
    (∀ (ps : List Predicate) (u : Update), Union ps u = orChain (ps.map (fun p => p u))) ∧
    (∀ (qs : List (Update → Bool)) (u : Update),
      Union (qs.map total) u = some (qs.any (fun q => q u))) ∧
    (∀ u : Update, Union [] u = some false) :=
  ⟨fun ps u => unionLoop_eq_orChain ps u, fun qs u => unionLoop_total qs u, fun _ => rfl⟩

/-- C2: for every predicate and every update, `Not(p)(u)` is the negation of `p(u)`
(a fault of `p` stays a fault), and `Not(Not(p))(u)` equals `p(u)`. -/
theorem C2_not_is_negation (p : Predicate) (u : Update) :
    Not p u = (p u).map (fun b => !b) ∧ Not (Not p) u = p u ∧
    (∀ q : Update → Bool, Not (total q) u = some (!(q u))) := by
  refine ⟨?_, ?_, fun q => rfl⟩
  · simp only [Not, goNot]
    cases p u <;> rfl
  · simp only [Not, goNot]
    cases p u with
    | none => rfl
    | some b => cases b <;> rfl

/-- C3: on an update whose slot is absent, each of the thirty-six text matchers of that
slot (Equal, EqualFold, Contains, Prefix, Suffix, Matches; message, edited message,
channel post, edited channel post, inline query, callback data) returns false, without
fault, for every comparison target and whatever the other slots hold. -/
theorem C3_absent_slot_is_false (simpleFold : Char → Char) (slot : TextSlot)
    (test : TextTest) (u : Update) (h : slot.absent u = true) :
    textPredicate simpleFold slot test u = some false := by
  cases slot <;> cases test <;>
    simp only [TextSlot.absent, Option.isNone_iff_eq_none] at h <;>
    simp [textPredicate, h, goAnd,
      TextEqual, TextEqualFold, TextContains, TextPrefix, TextSuffix, TextMatches,
      textEqual, textEqualFold, textContains, textPrefix, textSuffix, textMatches,
      EditedTextEqual, EditedTextEqualFold, EditedTextContains, EditedTextPrefix,
      EditedTextSuffix, EditedTextMatches,
      PostTextEqual, PostTextEqualFold, PostTextContains, PostTextPrefix,
      PostTextSuffix, PostTextMatches,
      EditedPostTextEqual, EditedPostTextEqualFold, EditedPostTextContains,
      EditedPostTextPrefix, EditedPostTextSuffix, EditedPostTextMatches,
      InlineQueryEqual, InlineQueryEqualFold, InlineQueryContains, InlineQueryPrefix,
      InlineQuerySuffix, InlineQueryMatches,
      CallbackDataEqual, CallbackDataEqualFold, CallbackDataContains, CallbackDataPrefix,
      CallbackDataSuffix, CallbackDataMatches]

/-- Witness of C3: an update with a channel post and a poll but no message, tested with
`TextMatches` on a nil pattern. -/
theorem C3_absent_slot_is_false_witness :
    TextSlot.absent .message
        { ChannelPost := some { Text := ['h', 'i'] }, Poll := some () } = true ∧
      textPredicate simpleFoldLatin .message (.matchesRe none)
        { ChannelPost := some { Text := ['h', 'i'] }, Poll := some () } = some false :=
  ⟨rfl, C3_absent_slot_is_false simpleFoldLatin .message (.matchesRe none)
    { ChannelPost := some { Text := ['h', 'i'] }, Poll := some () } rfl⟩

theorem takeWhile_append_stop (p : Char → Bool) (post : Str)
    (hpost : ∀ c, post.head? = some c → p c = false) :
    ∀ pre : Str, (∀ c ∈ pre, p c = true) →
      (pre ++ post).takeWhile p = pre ∧ (pre ++ post).dropWhile p = post := by
  intro pre
  induction pre with
  | nil =>
    intro _
    cases post with
    | nil => simp
    | cons y ys =>
      have hy : p y = false := hpost y rfl
      simp [List.takeWhile_cons, List.dropWhile_cons, hy]
  | cons x xs ih =>
    intro hall
    have hx : p x = true := hall x (List.mem_cons_self _ _)
    have h := ih (fun c hc => hall c (List.mem_cons_of_mem _ hc))
    simp [List.takeWhile_cons, List.dropWhile_cons, hx, h.1, h.2]

/-- A text of the shape slash, word characters, remainder is read as that name and that
remainder less one leading space. -/
theorem commandParts_shape (name rest : Str) (hne : name ≠ [])
    (hname : ∀ c ∈ name, isWordChar c = true)
    (hrest : ∀ c, rest.head? = some c → isWordChar c = false) (hnl : '\n' ∉ rest) :
    commandParts ('/' :: (name ++ rest)) = some (name, dropOneSpace rest) := by
  have h := takeWhile_append_stop isWordChar rest hrest name hname
  simp [commandParts, h.1, h.2, hne, hnl]

/-- Every text that is read as a command has that shape. -/
theorem commandParts_some (text name tail : Str) (h : commandParts text = some (name, tail)) :
    ∃ rest : Str, text = '/' :: (name ++ rest) ∧ name ≠ [] ∧
      (∀ c ∈ name, isWordChar c = true) ∧
      (∀ c, rest.head? = some c → isWordChar c = false) ∧ '\n' ∉ rest ∧
      tail = dropOneSpace rest := by
  cases text with
  | nil => simp [commandParts] at h
  | cons c s =>
    simp only [commandParts] at h
    split at h
    · rename_i hcond
      obtain ⟨hc, hne, hnl⟩ := hcond
      simp only [Option.some.injEq, Prod.mk.injEq] at h
      obtain ⟨h1, h2⟩ := h
      refine ⟨s.dropWhile isWordChar, ?_, ?_, ?_, ?_, hnl, h2.symm⟩
      · rw [← h1, List.takeWhile_append_dropWhile, hc]
      · rw [← h1]; exact hne
      · rw [← h1]; exact takeWhile_all isWordChar s
      · exact dropWhile_head isWordChar s
    · exact Option.noConfusion h

theorem commandParts_eq_none (text : Str)
    (h : text.head? ≠ some '/' ∨ (∀ c, text.tail.head? = some c → isWordChar c = false) ∨
      '\n' ∈ text) :
    commandParts text = none := by
  cases hp : commandParts text with
  | none => rfl
  | some p =>
    exfalso
    obtain ⟨name, tail⟩ := p
    obtain ⟨rest, htext, hne, hname, _, hnl, _⟩ := commandParts_some text name tail hp
    subst htext
    cases name with
    | nil => exact hne rfl
    | cons x xs =>
      have hx : isWordChar x = true := hname x (List.mem_cons_self _ _)
      rcases h with h | h | h
      · exact h rfl
      · have := h x rfl
        rw [hx] at this
        exact Bool.noConfusion this
      · rw [List.mem_cons, List.mem_append] at h
        rcases h with h | h | h
        · exact absurd h (by decide)
        · exact absurd (hname '\n' h) (by decide)
        · exact hnl h

/-- C4: when the message slot is absent, or the message text does not begin with a
slash, or no word character follows the slash, or the text contains a newline, the four
command predicates return false, without fault, for every name, count and argument
list. -/
theorem C4_non_command_is_false (simpleFold : Char → Char) (u : Update) (name : Str)
    (n : Int) (argv : List Str)
    (h : u.Message = none ∨ ∃ m : Message, u.Message = some m ∧
      (m.Text.head? ≠ some '/' ∨
        (∀ c, m.Text.tail.head? = some c → isWordChar c = false) ∨ '\n' ∈ m.Text)) :
    AnyCommand u = some false ∧ CommandEqual simpleFold name u = some false ∧
      CommandEqualArgc simpleFold name n u = some false ∧
      CommandEqualArgv simpleFold name argv u = some false := by
  rw [anyCommand_eq, commandEqual_eq, commandEqualArgc_eq, commandEqualArgv_eq]
  rcases h with h | ⟨m, hm, h⟩
  · simp [h]
  · have hp := commandParts_eq_none m.Text h
    simp [hm, hp]

/-- Witness of C4: a command text broken by a newline. -/
theorem C4_non_command_is_false_witness :
    AnyCommand (messageUpdate "/start\nnow".toList) = some false ∧
      CommandEqual simpleFoldLatin "start".toList (messageUpdate "/start\nnow".toList)
        = some false ∧
      CommandEqualArgc simpleFoldLatin "start".toList 1 (messageUpdate "/start\nnow".toList)
        = some false ∧
      CommandEqualArgv simpleFoldLatin "start".toList ["now".toList]
        (messageUpdate "/start\nnow".toList) = some false :=
  C4_non_command_is_false simpleFoldLatin (messageUpdate "/start\nnow".toList)
    "start".toList 1 ["now".toList]
    (Or.inr ⟨{ Text := "/start\nnow".toList }, rfl, Or.inr (Or.inr (by decide))⟩)

/-- C5, as stated, fails: the text `/start@mybot` is accepted by the command pattern,
yet after its name comes neither the end of the text nor a space. -/
theorem C5_counterexample :
    AnyCommand (messageUpdate "/start@mybot".toList) = some true ∧
      ¬ FixedCommandShape "/start@mybot".toList := by
  refine ⟨by decide, ?_⟩
  rintro ⟨name, args, _, hname, h | h⟩
  · have hmem : '@' ∈ name := by
      have h1 : name = "start@mybot".toList := (List.cons.inj h).2.symm
      rw [h1]
      decide
    exact absurd (hname '@' hmem) (by decide)
  · have hmem : ' ' ∈ "/start@mybot".toList := by
      rw [h]
      simp
    exact absurd hmem (by decide)

/-- C5, amended: the texts the command pattern accepts are exactly those made of a
slash, then a non-empty run of word characters (the name, taken whole), then a remainder
without a newline that is empty or begins with a character that is not a word character;
a space is only one possible first character of that remainder. -/
theorem C5_accepted_shape (u : Update) :
    AnyCommand u = some true ↔
      ∃ (m : Message) (name rest : Str), u.Message = some m ∧
        m.Text = '/' :: (name ++ rest) ∧ name ≠ [] ∧
        (∀ c ∈ name, isWordChar c = true) ∧
        (∀ c, rest.head? = some c → isWordChar c = false) ∧ '\n' ∉ rest := by
  rw [anyCommand_eq]
  constructor
  · intro h
    cases hm : u.Message with
    | none => simp [hm] at h
    | some m =>
      cases hp : commandParts m.Text with
      | none => simp [hm, hp] at h
      | some p =>
        obtain ⟨name, tail⟩ := p
        obtain ⟨rest, htext, hne, hname, hrest, hnl, _⟩ :=
          commandParts_some m.Text name tail hp
        exact ⟨m, name, rest, rfl, htext, hne, hname, hrest, hnl⟩
  · rintro ⟨m, name, rest, hm, htext, hne, hname, hrest, hnl⟩
    have hp := commandParts_shape name rest hne hname hrest hnl
    simp [hm, htext, hp]

/-- C6: for a non-empty name of word characters and arguments without a newline, the
command pattern matches `/name` with groups `name` and `""`, and matches `/name args`
with groups `name` and `args`: the name is captured whole and one separating space is
dropped. -/
theorem C6_groups (name args : Str) (hne : name ≠ [])
    (hname : ∀ c ∈ name, isWordChar c = true) (hargs : '\n' ∉ args) :
    CommandRegexp.FindStringSubmatch ('/' :: name) = ['/' :: name, name, []] ∧
      CommandRegexp.FindStringSubmatch ('/' :: (name ++ ' ' :: args))
        = ['/' :: (name ++ ' ' :: args), name, args] := by
  constructor
  · have hp := commandParts_shape name [] hne hname (by simp) (by simp)
    rw [List.append_nil] at hp
    rw [findStringSubmatch_command, hp]
    rfl
  · have hp := commandParts_shape name (' ' :: args) hne hname
      (by
        intro c hc
        simp only [List.head?_cons, Option.some.injEq] at hc
        rw [← hc]
        decide)
      (by
        intro h
        rw [List.mem_cons] at h
        rcases h with h | h
        · exact absurd h (by decide)
        · exact hargs h)
    rw [findStringSubmatch_command, hp]
    simp [dropOneSpace]

/-- Witness of C6: the name `how` with the arguments `does this`. -/
theorem C6_groups_witness :
    CommandRegexp.FindStringSubmatch "/how".toList = ["/how".toList, "how".toList, []] ∧
      CommandRegexp.FindStringSubmatch "/how does this".toList
        = ["/how does this".toList, "how".toList, "does this".toList] :=
  C6_groups "how".toList "does this".toList (by decide) (by decide) (by decide)

theorem foldRuneEq_of_sameLetter (simpleFold : Char → Char) (a b : Char)
    (h : sameLetter a b = true) : foldRuneEq simpleFold a b = true := by
  unfold foldRuneEq
  by_cases hab : b = a
  · simp [hab]
  · have hab1 : ¬ a = b := fun e => hab e.symm
    simp only [sameLetter, Bool.or_eq_true, Bool.and_eq_true, beq_iff_eq, decide_eq_true_eq,
      hab1, false_or] at h
    rcases h with ⟨⟨h1, h2⟩, h3⟩ | ⟨⟨h1, h2⟩, h3⟩
    · have hlt : ¬ b.toNat < a.toNat := by omega
      have h128 : b.toNat < 128 := by omega
      simp only [beq_iff_eq, hab, if_false, hlt, h128, if_true]
      simp [h1, h2, h3]
    · have hlt : b.toNat < a.toNat := by omega
      have h128 : a.toNat < 128 := by omega
      simp only [beq_iff_eq, hab, if_false, hlt, h128, if_true]
      simp [h1, h2, h3]

theorem sameLetter_of_foldRuneEq (simpleFold : Char → Char) (a b : Char)
    (ha : a.toNat < 128) (hb : b.toNat < 128) (h : foldRuneEq simpleFold a b = true) :
    sameLetter a b = true := by
  unfold foldRuneEq at h
  by_cases hab : b = a
  · simp [sameLetter, hab]
  · by_cases hlt : b.toNat < a.toNat
    · simp only [beq_iff_eq, hab, if_false, hlt, if_true, ha, Bool.and_eq_true,
        decide_eq_true_eq] at h
      simp [sameLetter, h.1.1, h.1.2, h.2]
    · simp only [beq_iff_eq, hab, if_false, hlt, hb, if_true, Bool.and_eq_true,
        decide_eq_true_eq] at h
      simp [sameLetter, h.1.1, h.1.2, h.2]

theorem isWordChar_lt (c : Char) (h : isWordChar c = true) : c.toNat < 128 := by
  simp only [isWordChar, Bool.or_eq_true, Bool.and_eq_true, decide_eq_true_eq,
    beq_iff_eq] at h
  omega

theorem isWordChar_of_sameLetter (a b : Char) (h : sameLetter a b = true)
    (hb : isWordChar b = true) : isWordChar a = true := by
  by_cases hab : a = b
  · rw [hab]; exact hb
  · simp only [sameLetter, Bool.or_eq_true, Bool.and_eq_true, beq_iff_eq, decide_eq_true_eq,
      hab, false_or] at h
    simp only [isWordChar, Bool.or_eq_true, Bool.and_eq_true, decide_eq_true_eq, beq_iff_eq]
    omega

theorem equalFold_of_caseVariant (simpleFold : Char → Char) :
    ∀ s t : Str, caseVariant s t = true → EqualFold simpleFold s t = true := by
  intro s
  induction s with
  | nil =>
    intro t h
    cases t with
    | nil => rfl
    | cons b t => simp [caseVariant] at h
  | cons a s ih =>
    intro t h
    cases t with
    | nil => simp [caseVariant] at h
    | cons b t =>
      simp only [caseVariant, Bool.and_eq_true] at h
      simp [EqualFold, foldRuneEq_of_sameLetter simpleFold a b h.1, ih t h.2]

theorem caseVariant_of_equalFold (simpleFold : Char → Char) :
    ∀ s t : Str, (∀ c ∈ s, isWordChar c = true) → (∀ c ∈ t, isWordChar c = true) →
      EqualFold simpleFold s t = true → caseVariant s t = true := by
  intro s
  induction s with
  | nil =>
    intro t _ _ h
    cases t with
    | nil => rfl
    | cons b t => simp [EqualFold] at h
  | cons a s ih =>
    intro t hs ht h
    cases t with
    | nil => simp [EqualFold] at h
    | cons b t =>
      simp only [EqualFold, Bool.and_eq_true] at h
      have ha := isWordChar_lt a (hs a (List.mem_cons_self _ _))
      have hb := isWordChar_lt b (ht b (List.mem_cons_self _ _))
      have h1 := sameLetter_of_foldRuneEq simpleFold a b ha hb h.1
      have h2 := ih t (fun c hc => hs c (List.mem_cons_of_mem _ hc))
        (fun c hc => ht c (List.mem_cons_of_mem _ hc)) h.2
      simp [caseVariant, h1, h2]

theorem caseVariant_word :
    ∀ s t : Str, caseVariant s t = true → (∀ c ∈ t, isWordChar c = true) →
      ∀ c ∈ s, isWordChar c = true := by
  intro s
  induction s with
  | nil => intro t _ _ c hc; simp at hc
  | cons a s ih =>
    intro t h ht c hc
    cases t with
    | nil => simp [caseVariant] at h
    | cons b t =>
      simp only [caseVariant, Bool.and_eq_true] at h
      rw [List.mem_cons] at hc
      rcases hc with hc | hc
      · rw [hc]
        exact isWordChar_of_sameLetter a b h.1 (ht b (List.mem_cons_self _ _))
      · exact ih t h.2 (fun c hc => ht c (List.mem_cons_of_mem _ hc)) c hc

theorem equalFold_length (simpleFold : Char → Char) :
    ∀ s t : Str, EqualFold simpleFold s t = true → s.length = t.length := by
  intro s
  induction s with
  | nil =>
    intro t h
    cases t with
    | nil => rfl
    | cons b t => simp [EqualFold] at h
  | cons a s ih =>
    intro t h
    cases t with
    | nil => simp [EqualFold] at h
    | cons b t =>
      simp only [EqualFold, Bool.and_eq_true] at h
      simp [ih t h.2]

/-- C7: for a command name `c` of ASCII word characters, `CommandEqual(c)` is true on
every text `/c'` with `c'` a case variant of `c`, whatever remainder the pattern accepts
after the name; it is false on the text `c` without the slash and on every text `/cw`
with `w` a non-empty string of word characters. -/
theorem C7_commandEqual (simpleFold : Char → Char) (c : Str) (hne : c ≠ [])
    (hc : ∀ x ∈ c, isWordChar x = true) :
    (∀ (u : Update) (c' rest : Str), caseVariant c' c = true →
      (∀ x, rest.head? = some x → isWordChar x = false) → '\n' ∉ rest →
      u.Message = some { Text := '/' :: (c' ++ rest) } →
      CommandEqual simpleFold c u = some true) ∧
    (∀ u : Update, u.Message = some { Text := c } →
      CommandEqual simpleFold c u = some false) ∧
    (∀ (u : Update) (w : Str), w ≠ [] → (∀ x ∈ w, isWordChar x = true) →
      u.Message = some { Text := '/' :: (c ++ w) } →
      CommandEqual simpleFold c u = some false) := by
  refine ⟨?_, ?_, ?_⟩
  · intro u c' rest hcv hrest hnl hu
    have hne' : c' ≠ [] := by
      intro e
      rw [e] at hcv
      cases c with
      | nil => exact hne rfl
      | cons b t => simp [caseVariant] at hcv
    have hp := commandParts_shape c' rest hne' (caseVariant_word c' c hcv hc) hrest hnl
    rw [commandEqual_eq, hu]
    simp [hp, equalFold_of_caseVariant simpleFold c' c hcv]
  · intro u hu
    have hp : commandParts c = none := by
      apply commandParts_eq_none
      left
      cases c with
      | nil => simp
      | cons x xs =>
        have hx := hc x (List.mem_cons_self _ _)
        intro e
        simp only [List.head?_cons, Option.some.injEq] at e
        rw [e] at hx
        exact absurd hx (by decide)
    rw [commandEqual_eq, hu]
    simp [hp]
  · intro u w hw hwd hu
    have hall : ∀ x ∈ c ++ w, isWordChar x = true := by
      intro x hx
      rw [List.mem_append] at hx
      rcases hx with hx | hx
      · exact hc x hx
      · exact hwd x hx
    have hp := commandParts_shape (c ++ w) [] (by simp [hne]) hall (by simp) (by simp)
    rw [List.append_nil] at hp
    have hfalse : EqualFold simpleFold (c ++ w) c = false := by
      cases h : EqualFold simpleFold (c ++ w) c with
      | false => rfl
      | true =>
        have hl := equalFold_length simpleFold _ _ h
        have hwl : 0 < w.length := List.length_pos.mpr hw
        rw [List.length_append] at hl
        omega
    rw [commandEqual_eq, hu]
    simp [hp, hfalse]

/-- Witness of C7: `CommandEqual("start")` on `/START`, `/Start now`, `start` and
`/starter`. -/
theorem C7_commandEqual_witness :
    CommandEqual simpleFoldLatin "start".toList (messageUpdate "/START".toList) = some true ∧
      CommandEqual simpleFoldLatin "start".toList (messageUpdate "/Start now".toList)
        = some true ∧
      CommandEqual simpleFoldLatin "start".toList (messageUpdate "start".toList)
        = some false ∧
      CommandEqual simpleFoldLatin "start".toList (messageUpdate "/starter".toList)
        = some false :=
  have h := C7_commandEqual simpleFoldLatin "start".toList (by decide) (by decide)
  ⟨h.1 (messageUpdate "/START".toList) "START".toList [] (by decide) (by decide)
      (by decide) rfl,
    h.1 (messageUpdate "/Start now".toList) "Start".toList " now".toList (by decide)
      (by decide) (by decide) rfl,
    h.2.1 (messageUpdate "start".toList) rfl,
    h.2.2 (messageUpdate "/starter".toList) "er".toList (by decide) (by decide) rfl⟩

/-- Splitting on a separator gives one piece more than there are separators. -/
theorem split_length (sep : Char) : ∀ s : Str, (Split s sep).length = s.count sep + 1 := by
  intro s
  induction s with
  | nil => rfl
  | cons c cs ih =>
    by_cases hc : c = sep
    · subst hc
      simp [Split, ih]
    · have hne : (c == sep) = false := by simpa using hc
      rw [Split, if_neg hc, List.count_cons, hne]
      cases hs : Split cs sep with
      | nil =>
        rw [hs] at ih
        simp at ih
      | cons piece pieces =>
        rw [hs] at ih
        simpa using ih

/-- C8: `CommandEqualArgc(name, n)(u)` is true exactly when the message is present, its
text matches the command pattern, the captured name is fold-equal to `name`, and either
`n == 0` with an empty raw tail or the raw tail split at every space has `n` tokens; the
predicate never faults; the token count is the number of spaces in the tail plus one;
and `CommandEqualArgc("how", 2)` is true on `/how does this`. -/
theorem C8_commandEqualArgc_iff (simpleFold : Char → Char) (name : Str) (n : Int)
    (u : Update) :
    (CommandEqualArgc simpleFold name n u = some true ↔
      ∃ (m : Message) (captured tail : Str), u.Message = some m ∧
        CommandRegexp.FindStringSubmatch m.Text = [m.Text, captured, tail] ∧
        EqualFold simpleFold captured name = true ∧
        ((n = 0 ∧ tail = []) ∨ ((Split tail ' ').length : Int) = n)) ∧
    (CommandEqualArgc simpleFold name n u = some true ∨
      CommandEqualArgc simpleFold name n u = some false) ∧
    (∀ tail : Str, (Split tail ' ').length = tail.count ' ' + 1) ∧
    CommandEqualArgc simpleFold "how".toList 2 (messageUpdate "/how does this".toList)
      = some true := by
  refine ⟨?_, ?_, split_length ' ', ?_⟩
  · rw [commandEqualArgc_eq]
    constructor
    · intro h
      cases hm : u.Message with
      | none => simp [hm] at h
      | some m =>
        cases hp : commandParts m.Text with
        | none => simp [hm, hp] at h
        | some p =>
          obtain ⟨captured, tail⟩ := p
          simp only [hm, hp, Option.some.injEq, Bool.and_eq_true, Bool.or_eq_true,
            beq_iff_eq] at h
          refine ⟨m, captured, tail, rfl, ?_, h.1, h.2⟩
          rw [findStringSubmatch_command, hp]
    · rintro ⟨m, captured, tail, hm, hfind, hfold, hargs⟩
      rw [findStringSubmatch_command] at hfind
      cases hp : commandParts m.Text with
      | none => simp [hp] at hfind
      | some p =>
        obtain ⟨a, b⟩ := p
        simp only [hp, List.cons.injEq, true_and, and_true] at hfind
        obtain ⟨ha, hb⟩ := hfind
        subst ha
        subst hb
        simp only [hm, hp, Option.some.injEq, Bool.and_eq_true, Bool.or_eq_true, beq_iff_eq]
        exact ⟨hfold, hargs⟩
  · rw [commandEqualArgc_eq]
    cases (match u.Message with
      | none => false
      | some m =>
        match commandParts m.Text with
        | none => false
        | some (nm, tail) =>
          EqualFold simpleFold nm name &&
            ((n == 0 && tail == []) || ((Split tail ' ').length : Int) == n)) with
    | true => exact Or.inl rfl
    | false => exact Or.inr rfl
  · rw [commandEqualArgc_eq]
    have hp : commandParts "/how does this".toList
        = some ("how".toList, "does this".toList) := by decide
    have hf : EqualFold simpleFold "how".toList "how".toList = true :=
      equalFold_of_caseVariant simpleFold _ _ (by decide)
    have hs : ((Split "does this".toList ' ').length : Int) = 2 := by decide
    simp only [messageUpdate, hp, hf, hs]
    simp

/-- C9, as stated, fails: the count 1 is not 0, yet `CommandEqualArgc("how", 1)` is true
on the text `/how`, whose argument tail is empty, because splitting the empty tail
yields one (empty) token; with the count 2 of the specification's example it is false. -/
theorem C9_counterexample :
    CommandRegexp.FindStringSubmatch "/how".toList = ["/how".toList, "how".toList, []] ∧
      Split [] ' ' = [[]] ∧
      CommandEqualArgc simpleFoldLatin "how".toList 1 (messageUpdate "/how".toList)
        = some true ∧
      CommandEqualArgc simpleFoldLatin "how".toList 2 (messageUpdate "/how".toList)
        = some false := by
  decide

/-- C9, amended: on a message whose command has an empty argument tail,
`CommandEqualArgc(name, n)` is true exactly when the captured name is fold-equal to
`name` and `n` is 0 or 1; for every other count, such as 2, it does not match. -/
theorem C9_empty_tail_counts (simpleFold : Char → Char) (name : Str) (n : Int)
    (u : Update) (m : Message) (captured : Str) (hm : u.Message = some m)
    (hfind : CommandRegexp.FindStringSubmatch m.Text = [m.Text, captured, []]) :
    CommandEqualArgc simpleFold name n u = some true ↔
      (EqualFold simpleFold captured name = true ∧ (n = 0 ∨ n = 1)) := by
  rw [findStringSubmatch_command] at hfind
  rw [commandEqualArgc_eq]
  cases hp : commandParts m.Text with
  | none => simp [hp] at hfind
  | some p =>
    obtain ⟨a, b⟩ := p
    simp only [hp, List.cons.injEq, true_and, and_true] at hfind
    obtain ⟨ha, hb⟩ := hfind
    subst ha
    subst hb
    have hone : ((Split [] ' ').length : Int) = 1 := rfl
    simp only [hm, hp, hone, Option.some.injEq, Bool.and_eq_true, Bool.or_eq_true,
      beq_iff_eq, and_true]
    constructor
    · rintro ⟨hf, h0 | h1⟩
      · exact ⟨hf, Or.inl h0⟩
      · exact ⟨hf, Or.inr h1.symm⟩
    · rintro ⟨hf, h0 | h1⟩
      · exact ⟨hf, Or.inl h0⟩
      · exact ⟨hf, Or.inr h1.symm⟩

/-- Witness of C9 (amended): the counts 2 and 1 on the text `/how`. -/
theorem C9_empty_tail_counts_witness :
    (CommandEqualArgc simpleFoldLatin "how".toList 2 (messageUpdate "/how".toList)
        = some true ↔
      (EqualFold simpleFoldLatin "how".toList "how".toList = true ∧
        ((2 : Int) = 0 ∨ (2 : Int) = 1))) ∧
    (CommandEqualArgc simpleFoldLatin "how".toList 1 (messageUpdate "/how".toList)
        = some true ↔
      (EqualFold simpleFoldLatin "how".toList "how".toList = true ∧
        ((1 : Int) = 0 ∨ (1 : Int) = 1))) :=
  ⟨C9_empty_tail_counts simpleFoldLatin "how".toList 2 (messageUpdate "/how".toList)
      { Text := "/how".toList } "how".toList rfl (by decide),
    C9_empty_tail_counts simpleFoldLatin "how".toList 1 (messageUpdate "/how".toList)
      { Text := "/how".toList } "how".toList rfl (by decide)⟩

/-- C10 at its failing input: `CommandEqualArgc("start", 0)`, which the example
comments as matching only `/start`, is true on the text `/start ` with a trailing space,
a text that is not `/start` in any letter case. -/
theorem C10_trailing_space_matches :
    CommandEqualArgc simpleFoldLatin "start".toList 0 (messageUpdate "/start ".toList)
        = some true ∧
      ¬ ∃ c' : Str, caseVariant c' "start".toList = true ∧
        (messageUpdate "/start ".toList).Message = some { Text := '/' :: c' } := by
  refine ⟨by decide, ?_⟩
  rintro ⟨c', hcv, htext⟩
  have h1 : c' = "start ".toList := by
    simp only [messageUpdate, Option.some.injEq, Message.mk.injEq] at htext
    exact (List.cons.inj htext).2.symm
  rw [h1] at hcv
  exact absurd hcv (by decide)

theorem dropOneSpace_eq_nil (rest : Str) (h : dropOneSpace rest = []) :
    rest = [] ∨ rest = [' '] := by
  cases rest with
  | nil => exact Or.inl rfl
  | cons c cs =>
    by_cases hc : c = ' '
    · simp only [dropOneSpace, hc, if_true] at h
      right
      rw [hc, h]
    · simp [dropOneSpace, hc] at h

/-- The texts the code accepts with the count 0: for a name `c` of word characters,
`CommandEqualArgc(c, 0)` is true only on a message whose text is `/c'` or `/c'` followed
by one space, `c'` being an upper/lower-case variant of `c`. -/
theorem argc_zero_texts (simpleFold : Char → Char) (c : Str)
    (hc : ∀ x ∈ c, isWordChar x = true) (u : Update)
    (h : CommandEqualArgc simpleFold c 0 u = some true) :
    ∃ (m : Message) (c' : Str), u.Message = some m ∧ caseVariant c' c = true ∧
      (m.Text = '/' :: c' ∨ m.Text = '/' :: (c' ++ [' '])) := by
  rw [commandEqualArgc_eq] at h
  cases hm : u.Message with
  | none => simp [hm] at h
  | some m =>
    cases hp : commandParts m.Text with
    | none => simp [hm, hp] at h
    | some p =>
      obtain ⟨captured, tail⟩ := p
      simp only [hm, hp, Option.some.injEq, Bool.and_eq_true, Bool.or_eq_true,
        beq_iff_eq, true_and] at h
      obtain ⟨hfold, hargs⟩ := h
      obtain ⟨rest, htext, _, hname, _, _, htail⟩ := commandParts_some m.Text captured tail hp
      have hempty : tail = [] := by
        rcases hargs with h0 | h0
        · exact h0
        · have := split_length ' ' tail
          omega
      have hrest := dropOneSpace_eq_nil rest (by rw [← htail]; exact hempty)
      refine ⟨m, captured, rfl, caseVariant_of_equalFold simpleFold captured c hname hc hfold,
        ?_⟩
      rcases hrest with hr | hr
      · left
        rw [htext, hr, List.append_nil]
      · right
        rw [htext, hr]

/-- An instance of `argc_zero_texts`: `CommandEqualArgc("start", 0)` on the text
`/START `. -/
theorem argc_zero_texts_example :
    ∃ (m : Message) (c' : Str),
      (messageUpdate "/START ".toList).Message = some m ∧
      caseVariant c' "start".toList = true ∧
      (m.Text = '/' :: c' ∨ m.Text = '/' :: (c' ++ [' '])) :=
  argc_zero_texts simpleFoldLatin "start".toList (by decide)
    (messageUpdate "/START ".toList) (by decide)

theorem argv_test_iff (argv : List Str) (tail : Str) :
    ((argv.length == 0 && tail == []) || tail == Join argv ' ') = true ↔
      tail = Join argv ' ' := by
  constructor
  · intro h
    simp only [Bool.or_eq_true, Bool.and_eq_true, beq_iff_eq] at h
    rcases h with ⟨h1, h2⟩ | h
    · have : argv = [] := List.length_eq_zero.mp h1
      rw [this, h2]
      rfl
    · exact h
  · intro h
    simp only [Bool.or_eq_true, Bool.and_eq_true, beq_iff_eq]
    exact Or.inr h

/-- Fold equality of two strings of word characters is equality up to ASCII letter
case, whatever the Unicode table. -/
theorem equalFold_word (simpleFold : Char → Char) (s t : Str)
    (hs : ∀ c ∈ s, isWordChar c = true) (ht : ∀ c ∈ t, isWordChar c = true) :
    EqualFold simpleFold s t = caseVariant s t := by
  cases h : caseVariant s t with
  | true => exact equalFold_of_caseVariant simpleFold s t h
  | false =>
    cases h2 : EqualFold simpleFold s t with
    | false => rfl
    | true =>
      have := caseVariant_of_equalFold simpleFold s t hs ht h2
      rw [h] at this
      exact Bool.noConfusion this

/-- C11: `CommandEqualArgv(name, argv...)(u)` is true exactly when the message is
present, its text matches the command pattern, the captured name is fold-equal to
`name`, and the raw tail is, as a whole string, the join of `argv` with single spaces
(the empty string for an empty `argv`); the predicate never faults;
`CommandEqualArgv("how", "works")` is true on `/how works` and false on `/how  works`. -/
theorem C11_commandEqualArgv_iff (simpleFold : Char → Char) (name : Str)
    (argv : List Str) (u : Update) :
    (CommandEqualArgv simpleFold name argv u = some true ↔
      ∃ (m : Message) (captured tail : Str), u.Message = some m ∧
        CommandRegexp.FindStringSubmatch m.Text = [m.Text, captured, tail] ∧
        EqualFold simpleFold captured name = true ∧ tail = Join argv ' ') ∧
    (CommandEqualArgv simpleFold name argv u = some true ∨
      CommandEqualArgv simpleFold name argv u = some false) ∧
    Join [] ' ' = [] ∧
    CommandEqualArgv simpleFold "how".toList ["works".toList]
      (messageUpdate "/how works".toList) = some true ∧
    CommandEqualArgv simpleFold "how".toList ["works".toList]
      (messageUpdate "/how  works".toList) = some false := by
  refine ⟨?_, ?_, rfl, ?_, ?_⟩
  · rw [commandEqualArgv_eq]
    constructor
    · intro h
      cases hm : u.Message with
      | none => simp [hm] at h
      | some m =>
        cases hp : commandParts m.Text with
        | none => simp [hm, hp] at h
        | some p =>
          obtain ⟨captured, tail⟩ := p
          simp only [hm, hp, Option.some.injEq, Bool.and_eq_true] at h
          refine ⟨m, captured, tail, rfl, ?_, h.1, (argv_test_iff argv tail).mp h.2⟩
          rw [findStringSubmatch_command, hp]
    · rintro ⟨m, captured, tail, hm, hfind, hfold, hargs⟩
      rw [findStringSubmatch_command] at hfind
      cases hp : commandParts m.Text with
      | none => simp [hp] at hfind
      | some p =>
        obtain ⟨a, b⟩ := p
        simp only [hp, List.cons.injEq, true_and, and_true] at hfind
        obtain ⟨ha, hb⟩ := hfind
        subst ha
        subst hb
        simp only [hm, hp, Option.some.injEq, Bool.and_eq_true]
        exact ⟨hfold, (argv_test_iff argv b).mpr hargs⟩
  · cases h : CommandEqualArgv simpleFold name argv u with
    | none =>
      rw [commandEqualArgv_eq] at h
      exact Option.noConfusion h
    | some b => cases b <;> simp
  · rw [commandEqualArgv_eq]
    have hp : commandParts "/how works".toList = some ("how".toList, "works".toList) := by
      decide
    have hf : EqualFold simpleFold "how".toList "how".toList = true :=
      equalFold_of_caseVariant simpleFold _ _ (by decide)
    have ht : (("works".toList == Join ["works".toList] ' ') : Bool) = true := by decide
    simp only [messageUpdate, hp, hf, ht]
    simp
  · rw [commandEqualArgv_eq]
    have hp : commandParts "/how  works".toList = some ("how".toList, " works".toList) := by
      decide
    have ht : ((" works".toList == Join ["works".toList] ' ') : Bool) = false := by decide
    have hl : ((["works".toList].length == 0) : Bool) = false := by decide
    simp only [messageUpdate, hp, ht, hl]
    simp

theorem commandEqual_message (simpleFold : Char → Char) (command text captured tail : Str)
    (hp : commandParts text = some (captured, tail))
    (hc : ∀ c ∈ command, isWordChar c = true) :
    CommandEqual simpleFold command (messageUpdate text)
      = some (caseVariant captured command) := by
  obtain ⟨_, _, _, hname, _, _, _⟩ := commandParts_some text captured tail hp
  rw [commandEqual_eq]
  simp only [messageUpdate, hp, equalFold_word simpleFold captured command hname hc]

theorem commandEqualArgc_message (simpleFold : Char → Char) (command text captured tail : Str)
    (argc : Int) (hp : commandParts text = some (captured, tail))
    (hc : ∀ c ∈ command, isWordChar c = true) :
    CommandEqualArgc simpleFold command argc (messageUpdate text)
      = some (caseVariant captured command &&
          ((argc == 0 && tail == []) || ((Split tail ' ').length : Int) == argc)) := by
  obtain ⟨_, _, _, hname, _, _, _⟩ := commandParts_some text captured tail hp
  rw [commandEqualArgc_eq]
  simp only [messageUpdate, hp, equalFold_word simpleFold captured command hname hc]

theorem commandEqualArgv_message (simpleFold : Char → Char) (command text captured tail : Str)
    (argv : List Str) (hp : commandParts text = some (captured, tail))
    (hc : ∀ c ∈ command, isWordChar c = true) :
    CommandEqualArgv simpleFold command argv (messageUpdate text)
      = some (caseVariant captured command &&
          ((argv.length == 0 && tail == []) || tail == Join argv ' ')) := by
  obtain ⟨_, _, _, hname, _, _, _⟩ := commandParts_some text captured tail hp
  rw [commandEqualArgv_eq]
  simp only [messageUpdate, hp, equalFold_word simpleFold captured command hname hc]

/-- C12, as stated, fails: the update with the text `/help extra args` is routed to the
second handler (index 1, H2), whose guard `AnyMessage() AND len(text) > 7` is the first
one that is true, and not to H3 (index 2). -/
theorem C12_counterexample :
    dispatch (exampleGuards simpleFoldLatin) (messageUpdate "/help extra args".toList)
        = some (some 1) ∧
      dispatch (exampleGuards simpleFoldLatin) (messageUpdate "/help extra args".toList)
        ≠ some (some 2) := by
  decide

/-- On a message whose text is not `Hmm?` the guard of H1 is false and the guard of H3
does not fault, so the message is routed to H2 exactly when its text is longer than 7
bytes. -/
theorem dispatch_H2_iff (simpleFold : Char → Char) (text : Str)
    (hne : text ≠ "Hmm?".toList) :
    dispatch (exampleGuards simpleFold) (messageUpdate text) = some (some 1) ↔
      len text > 7 := by
  have hb : (text == "Hmm?".toList) = false := beq_eq_false_iff_ne.mpr hne
  have g1 : registrationGuard guardH1 (messageUpdate text) = some false := by
    simp only [registrationGuard, guardH1, Union, unionLoop, Not, goNot, AnyMessage,
      anyMassage, TextEqual, textEqual, messageUpdate, goAnd, field, Option.isSome,
      Option.map, hb]
    rfl
  have g2 : registrationGuard guardH2 (messageUpdate text)
      = some (decide (len text > 7)) := by
    cases hd : decide (len text > 7) <;>
      simp [registrationGuard, guardH2, AnyMessage, anyMassage, textLongerThan7,
        messageUpdate, goAnd, field, hd]
  have g3 : ∃ b, registrationGuard (guardH3 simpleFold) (messageUpdate text) = some b := by
    obtain ⟨b1, h1⟩ : ∃ b, CommandEqualArgc simpleFold "start".toList 0
        (messageUpdate text) = some b := ⟨_, commandEqualArgc_eq _ _ _ _⟩
    obtain ⟨b2, h2⟩ : ∃ b, CommandEqualArgv simpleFold "how".toList ["works".toList]
        (messageUpdate text) = some b := ⟨_, commandEqualArgv_eq _ _ _ _⟩
    obtain ⟨b3, h3⟩ : ∃ b, CommandEqual simpleFold "help".toList
        (messageUpdate text) = some b := ⟨_, commandEqual_eq _ _ _⟩
    simp only [registrationGuard, guardH3, Union, unionLoop, h1, h2, h3]
    cases b1 <;> cases b2 <;> cases b3 <;> simp [goAnd]
  obtain ⟨b, hb⟩ := g3
  by_cases hl : len text > 7
  · simp only [dispatch, exampleGuards, g1, g2, hl, decide_True]
    simp
  · simp only [dispatch, exampleGuards, g1, g2, hb, hl, decide_False]
    cases b <;> simp

/-- C12, amended: with the guards H1, H2, H3 in registration order and first-match
dispatch, the update with the text `/start` is routed to H3; the update with the text
`/help extra args` is routed to H2, whose guard is the first that is true since the text
has more than 7 bytes, although the guard of H3 is true on it as well. A message other
than `Hmm?` is routed to H2 exactly when its text is longer than 7 bytes. -/
theorem C12_command_routing (simpleFold : Char → Char) :
    dispatch (exampleGuards simpleFold) (messageUpdate "/start".toList) = some (some 2) ∧
      dispatch (exampleGuards simpleFold) (messageUpdate "/help extra args".toList)
        = some (some 1) ∧
      registrationGuard (guardH3 simpleFold) (messageUpdate "/help extra args".toList)
        = some true ∧
      len "/help extra args".toList = 16 ∧
      (∀ text : Str, text ≠ "Hmm?".toList →
        (dispatch (exampleGuards simpleFold) (messageUpdate text) = some (some 1) ↔
          len text > 7)) := by
  have h1 : registrationGuard guardH1 (messageUpdate "/start".toList) = some false := by
    decide
  have h2 : registrationGuard guardH2 (messageUpdate "/start".toList) = some false := by
    decide
  have h3 : registrationGuard (guardH3 simpleFold) (messageUpdate "/start".toList)
      = some true := by
    have hp : commandParts "/start".toList = some ("start".toList, []) := by decide
    have hc := commandEqualArgc_message simpleFold "start".toList "/start".toList
      "start".toList [] 0 hp (by decide)
    have hv : (caseVariant "start".toList "start".toList &&
        (((0 : Int) == 0 && ([] : Str) == []) || ((Split [] ' ').length : Int) == 0))
        = true := by decide
    rw [hv] at hc
    simp only [registrationGuard, guardH3, Union, unionLoop, hc]
    rfl
  have k1 : registrationGuard guardH1 (messageUpdate "/help extra args".toList)
      = some false := by decide
  have k2 : registrationGuard guardH2 (messageUpdate "/help extra args".toList)
      = some true := by decide
  have k3 : registrationGuard (guardH3 simpleFold) (messageUpdate "/help extra args".toList)
      = some true := by
    have hp : commandParts "/help extra args".toList
        = some ("help".toList, "extra args".toList) := by decide
    have hc1 := commandEqualArgc_message simpleFold "start".toList _ _ _ 0 hp (by decide)
    have hc2 := commandEqualArgv_message simpleFold "how".toList _ _ _ ["works".toList] hp
      (by decide)
    have hc3 := commandEqual_message simpleFold "help".toList _ _ _ hp (by decide)
    simp only [registrationGuard, guardH3, Union, unionLoop, hc1, hc2, hc3]
    decide
  refine ⟨?_, ?_, k3, by decide, fun text hne => dispatch_H2_iff simpleFold text hne⟩
  · simp only [dispatch, exampleGuards, h1, h2, h3]
    rfl
  · simp only [dispatch, exampleGuards, k1, k2]
    rfl

/-- C13: with the guards H1, H2, H3 in registration order and first-match dispatch, the
update with the text `Hmm?` is routed to H1, the one with the text `this is long` to H2,
and an update carrying only an inline query to H1, since `Not(AnyMessage())` is true on
it; the dispatch does not fault there although the text-length predicate of H2 would
fault on the absent message, and inside the guard of H2 `AnyMessage()` is false first. -/
theorem C13_text_routing (simpleFold : Char → Char) (q : InlineQuery) :
    dispatch (exampleGuards simpleFold) (messageUpdate "Hmm?".toList) = some (some 0) ∧
      dispatch (exampleGuards simpleFold) (messageUpdate "this is long".toList)
        = some (some 1) ∧
      dispatch (exampleGuards simpleFold) { InlineQuery := some q } = some (some 0) ∧
      Not AnyMessage { InlineQuery := some q } = some true ∧
      textLongerThan7 { InlineQuery := some q } = none ∧
      registrationGuard guardH2 { InlineQuery := some q } = some false := by
  have h1 : registrationGuard guardH1 (messageUpdate "Hmm?".toList) = some true := by
    decide
  have k1 : registrationGuard guardH1 (messageUpdate "this is long".toList)
      = some false := by decide
  have k2 : registrationGuard guardH2 (messageUpdate "this is long".toList)
      = some true := by decide
  have l1 : registrationGuard guardH1 { InlineQuery := some q } = some true := rfl
  refine ⟨?_, ?_, ?_, rfl, rfl, rfl⟩
  · simp only [dispatch, exampleGuards, h1]
  · simp only [dispatch, exampleGuards, k1, k2]
    rfl
  · simp only [dispatch, exampleGuards, l1]

/-- C14: on an update whose slot is populated with the text `s`, the matcher of a
family on that slot returns what the family computes on `s` and the target; the result
is the same for the six slots (message, edited message, channel post, edited channel
post, inline query `Query`, callback query `Data`) and does not depend on the other
slots; it is a boolean unless the pattern of a `Matches` test is nil. -/
theorem C14_uniform_matchers (simpleFold : Char → Char) (slot : TextSlot) (test : TextTest)
    (u : Update) (s : Str) (h : slot.text u = some s) :
    textPredicate simpleFold slot test u = test.eval simpleFold s ∧
      (test.eval simpleFold s = none ↔ ∃ p, test = TextTest.matchesRe p ∧ p = none) := by
  constructor
  · cases slot <;> cases test <;>
      simp only [TextSlot.text, Option.map_eq_some'] at h <;>
      obtain ⟨m, hm, hs⟩ := h <;>
      simp [textPredicate, TextTest.eval, hm, hs, goAnd, field,
        TextEqual, TextEqualFold, TextContains, TextPrefix, TextSuffix, TextMatches,
        textEqual, textEqualFold, textContains, textPrefix, textSuffix, textMatches,
        EditedTextEqual, EditedTextEqualFold, EditedTextContains, EditedTextPrefix,
        EditedTextSuffix, EditedTextMatches,
        PostTextEqual, PostTextEqualFold, PostTextContains, PostTextPrefix,
        PostTextSuffix, PostTextMatches,
        EditedPostTextEqual, EditedPostTextEqualFold, EditedPostTextContains,
        EditedPostTextPrefix, EditedPostTextSuffix, EditedPostTextMatches,
        InlineQueryEqual, InlineQueryEqualFold, InlineQueryContains, InlineQueryPrefix,
        InlineQuerySuffix, InlineQueryMatches,
        CallbackDataEqual, CallbackDataEqualFold, CallbackDataContains, CallbackDataPrefix,
        CallbackDataSuffix, CallbackDataMatches]
  · cases test with
    | matchesRe p =>
      cases p with
      | none => simp [TextTest.eval, matchString]
      | some re => simp [TextTest.eval, matchString]
    | equal t => simp [TextTest.eval]
    | equalFold t => simp [TextTest.eval]
    | contains t => simp [TextTest.eval]
    | hasPrefix t => simp [TextTest.eval]
    | hasSuffix t => simp [TextTest.eval]

/-- Witness of C14: the callback data `go` tested for the prefix `g` on an update that
also carries a message and a poll. -/
theorem C14_uniform_matchers_witness :
    textPredicate simpleFoldLatin .callbackData (.hasPrefix ['g'])
        { Message := some { Text := ['n', 'o'] }, Poll := some (),
          CallbackQuery := some { Data := ['g', 'o'], Message := none } }
        = TextTest.eval simpleFoldLatin (.hasPrefix ['g']) ['g', 'o'] ∧
      (TextTest.eval simpleFoldLatin (.hasPrefix ['g']) ['g', 'o'] = none ↔
        ∃ p, TextTest.hasPrefix ['g'] = TextTest.matchesRe p ∧ p = none) :=
  C14_uniform_matchers simpleFoldLatin .callbackData (.hasPrefix ['g'])
    { Message := some { Text := ['n', 'o'] }, Poll := some (),
      CallbackQuery := some { Data := ['g', 'o'], Message := none } } ['g', 'o'] rfl

/-- C15: `Union` evaluates its predicates from left to right and stops at the first
true one: when every predicate before `p` is false on `u` and `p` is true, the result
is true whatever the later predicates do on `u`, faults included. -/
theorem C15_union_short_circuit (before after : List Predicate) (p : Predicate)
    (u : Update) (hbefore : ∀ q ∈ before, q u = some false) (hp : p u = some true) :
    Union (before ++ p :: after) u = some true := by
  unfold Union
  induction before with
  | nil => simp [unionLoop, hp]
  | cons q qs ih =>
    have hq : q u = some false := hbefore q (List.mem_cons_self _ _)
    have h := ih (fun r hr => hbefore r (List.mem_cons_of_mem _ hr))
    simp [unionLoop, hq, h]

/-- Witness of C15: on an update with only an inline query, `TextEqual` is false,
`Not(AnyMessage())` is true, and the text-length predicate of the example, which would
fault there, comes later. -/
theorem C15_union_short_circuit_witness :
    textLongerThan7 { InlineQuery := some { Query := ['q'] } } = none ∧
      Union ([TextEqual ['h']] ++ Not AnyMessage :: [textLongerThan7])
        { InlineQuery := some { Query := ['q'] } } = some true :=
  ⟨rfl, C15_union_short_circuit [TextEqual ['h']] [textLongerThan7] (Not AnyMessage)
    { InlineQuery := some { Query := ['q'] } }
    (by
      intro q hq
      rw [List.mem_singleton] at hq
      rw [hq]
      rfl)
    rfl⟩

/-- C16: the command predicates are total: on every update, for every name, count and
argument list, `CommandEqual`, `CommandEqualArgc` and `CommandEqualArgv` return a
boolean without fault; the submatch list has `CommandMatchGroupsLen = 3` entries exactly
on the texts the pattern accepts and is empty on the others, so the entries 1 and 2
exist whenever they are read. -/
theorem C16_command_predicates_total (simpleFold : Char → Char) (name : Str) (n : Int)
    (argv : List Str) (u : Update) :
    (∃ b, CommandEqual simpleFold name u = some b) ∧
      (∃ b, CommandEqualArgc simpleFold name n u = some b) ∧
      (∃ b, CommandEqualArgv simpleFold name argv u = some b) ∧
      (∀ text : Str, (CommandRegexp.FindStringSubmatch text).length = CommandMatchGroupsLen ↔
        CommandRegexp.MatchString text = true) ∧
      (∀ text : Str, CommandRegexp.MatchString text = false →
        CommandRegexp.FindStringSubmatch text = []) ∧
      (∀ text : Str, (CommandRegexp.FindStringSubmatch text).length = CommandMatchGroupsLen →
        ∃ g1 g2, (CommandRegexp.FindStringSubmatch text)[1]? = some g1 ∧
          (CommandRegexp.FindStringSubmatch text)[2]? = some g2) := by
  refine ⟨⟨_, commandEqual_eq simpleFold name u⟩, ⟨_, commandEqualArgc_eq simpleFold name n u⟩,
    ⟨_, commandEqualArgv_eq simpleFold name argv u⟩, ?_, ?_, ?_⟩
  · intro text
    rw [findStringSubmatch_command, matchString_command]
    cases commandParts text with
    | none => simp [CommandMatchGroupsLen]
    | some p => simp [CommandMatchGroupsLen]
  · intro text
    rw [findStringSubmatch_command, matchString_command]
    cases commandParts text with
    | none => simp
    | some p => simp
  · intro text
    rw [findStringSubmatch_command]
    cases commandParts text with
    | none => simp [CommandMatchGroupsLen]
    | some p => simp

/-- C17: `CommandEqualArgv(name)` without arguments and `CommandEqualArgc(name, 0)`
return the same value on every update; they are true exactly when the message is
present, the pattern matches with a captured name fold-equal to `name`, and the raw tail
is empty; splitting on a space never yields zero tokens. -/
theorem C17_argv_empty_is_argc_zero (simpleFold : Char → Char) (name : Str) (u : Update) :
    CommandEqualArgv simpleFold name [] u = CommandEqualArgc simpleFold name 0 u ∧
      (CommandEqualArgc simpleFold name 0 u = some true ↔
        ∃ (m : Message) (captured : Str), u.Message = some m ∧
          CommandRegexp.FindStringSubmatch m.Text = [m.Text, captured, []] ∧
          EqualFold simpleFold captured name = true) ∧
      (∀ s : Str, (Split s ' ').length ≠ 0) := by
  have hsplit : ∀ s : Str, (Split s ' ').length ≠ 0 := by
    intro s
    rw [split_length]
    omega
  have hinner : ∀ tail : Str,
      ((((0 : Int) == 0 && tail == []) || ((Split tail ' ').length : Int) == 0) : Bool)
        = (tail == []) := by
    intro tail
    have h0 : (((Split tail ' ').length : Int) == 0) = false := by
      have := hsplit tail
      simp only [beq_eq_false_iff_ne, ne_eq, Int.natCast_eq_zero]
      exact this
    rw [h0]
    simp
  refine ⟨?_, ?_, hsplit⟩
  · rw [commandEqualArgv_eq, commandEqualArgc_eq]
    cases u.Message with
    | none => rfl
    | some m =>
      dsimp only
      cases hp : commandParts m.Text with
      | none => rfl
      | some p =>
        obtain ⟨captured, tail⟩ := p
        simp only [hinner tail]
        cases tail <;> simp [Join]
  · rw [commandEqualArgc_eq]
    constructor
    · intro h
      cases hm : u.Message with
      | none => simp [hm] at h
      | some m =>
        cases hp : commandParts m.Text with
        | none => simp [hm, hp] at h
        | some p =>
          obtain ⟨captured, tail⟩ := p
          simp only [hm, hp, hinner tail, Option.some.injEq, Bool.and_eq_true,
            beq_iff_eq] at h
          refine ⟨m, captured, rfl, ?_, h.1⟩
          rw [findStringSubmatch_command, hp, h.2]
    · rintro ⟨m, captured, hm, hfind, hfold⟩
      rw [findStringSubmatch_command] at hfind
      cases hp : commandParts m.Text with
      | none => simp [hp] at hfind
      | some p =>
        obtain ⟨a, b⟩ := p
        simp only [hp, List.cons.injEq, true_and, and_true] at hfind
        obtain ⟨ha, hb⟩ := hfind
        subst ha
        subst hb
        simpa [hm, hp, hinner] using hfold

theorem count_join (sep : Char) :
    ∀ argv : List Str, (∀ a ∈ argv, sep ∉ a) → argv ≠ [] →
      (Join argv sep).count sep + 1 = argv.length := by
  intro argv
  induction argv with
  | nil => intro _ h; exact absurd rfl h
  | cons e es ih =>
    intro hall _
    have he : e.count sep = 0 := List.count_eq_zero_of_not_mem (hall e (List.mem_cons_self _ _))
    cases es with
    | nil => simp [Join, he]
    | cons e2 es2 =>
      have h := ih (fun a ha => hall a (List.mem_cons_of_mem _ ha)) (by simp)
      simp only [Join, List.count_append, List.count_cons_self, he, List.length_cons] at h ⊢
      omega

/-- C18: when no element of `argv` contains a space, `CommandEqualArgv(name, argv...)`
true on an update makes `CommandEqualArgc(name, len(argv))` true on it; with an element
that contains a space the implication can fail, as for `argv = ["a b"]` on the text
`/how a b`. -/
theorem C18_argv_implies_argc :
    (∀ (simpleFold : Char → Char) (name : Str) (argv : List Str) (u : Update),
      (∀ a ∈ argv, ' ' ∉ a) → CommandEqualArgv simpleFold name argv u = some true →
      CommandEqualArgc simpleFold name (argv.length : Int) u = some true) ∧
    (∃ (name : Str) (argv : List Str) (u : Update), (∃ a ∈ argv, ' ' ∈ a) ∧
      CommandEqualArgv simpleFoldLatin name argv u = some true ∧
      CommandEqualArgc simpleFoldLatin name (argv.length : Int) u = some false) := by
  constructor
  · intro simpleFold name argv u hargv h
    rw [commandEqualArgv_eq] at h
    rw [commandEqualArgc_eq]
    cases hm : u.Message with
    | none => simp [hm] at h
    | some m =>
      cases hp : commandParts m.Text with
      | none => simp [hm, hp] at h
      | some p =>
        obtain ⟨captured, tail⟩ := p
        simp only [hm, hp, Option.some.injEq, Bool.and_eq_true] at h
        have htail := (argv_test_iff argv tail).mp h.2
        simp only [hp, Option.some.injEq, Bool.and_eq_true, Bool.or_eq_true, beq_iff_eq]
        refine ⟨h.1, ?_⟩
        cases argv with
        | nil =>
          left
          exact ⟨rfl, htail⟩
        | cons e es =>
          right
          have hc := count_join ' ' (e :: es) hargv (by simp)
          rw [htail, split_length, hc]
  · exact ⟨"how".toList, ["a b".toList], messageUpdate "/how a b".toList,
      ⟨"a b".toList, by decide, by decide⟩, by decide, by decide⟩

/-- Witness of C18: `CommandEqualArgv("how", "does", "this")` and
`CommandEqualArgc("how", 2)` on the text `/how does this`. -/
theorem C18_argv_implies_argc_witness :
    CommandEqualArgc simpleFoldLatin "how".toList
      ((["does".toList, "this".toList].length : Nat) : Int)
      (messageUpdate "/how does this".toList) = some true :=
  C18_argv_implies_argc.1 simpleFoldLatin "how".toList ["does".toList, "this".toList]
    (messageUpdate "/how does this".toList) (by decide) (by decide)

/-- C19: on every update the message predicates form a chain of implications:
`CommandEqualArgc(name, n)` and `CommandEqualArgv(name, argv...)` each imply
`CommandEqual(name)`, which implies `AnyCommand()`, which implies
`AnyMessageWithText()`, which implies `AnyMessage()`. -/
theorem C19_implication_chain (simpleFold : Char → Char) (name : Str) (n : Int)
    (argv : List Str) (u : Update) :
    (CommandEqualArgc simpleFold name n u = some true →
      CommandEqual simpleFold name u = some true) ∧
    (CommandEqualArgv simpleFold name argv u = some true →
      CommandEqual simpleFold name u = some true) ∧
    (CommandEqual simpleFold name u = some true → AnyCommand u = some true) ∧
    (AnyCommand u = some true → AnyMessageWithText u = some true) ∧
    (AnyMessageWithText u = some true → AnyMessage u = some true) := by
  rw [commandEqualArgc_eq, commandEqualArgv_eq, commandEqual_eq, anyCommand_eq]
  cases hm : u.Message with
  | none => simp [AnyMessageWithText, anyMassageWithText, AnyMessage, anyMassage, hm, goAnd]
  | some m =>
    dsimp only
    cases hp : commandParts m.Text with
    | none =>
      simp [AnyMessageWithText, anyMassageWithText, AnyMessage, anyMassage, hm, goAnd]
    | some p =>
      obtain ⟨captured, tail⟩ := p
      have htext : m.Text ≠ [] := by
        intro e
        rw [e] at hp
        simp [commandParts] at hp
      refine ⟨?_, ?_, ?_, ?_, ?_⟩
      · intro h
        simp only [Option.some.injEq, Bool.and_eq_true] at h ⊢
        exact h.1
      · intro h
        simp only [Option.some.injEq, Bool.and_eq_true] at h ⊢
        exact h.1
      · intro _
        simp
      · intro _
        simp [AnyMessageWithText, anyMassageWithText, hm, goAnd, field, htext]
      · intro _
        simp [AnyMessage, anyMassage, hm]

/-- Witness of C19: the chain on the text `/how does this`, from
`CommandEqualArgc("how", 2)` down to `AnyMessage()`. -/
theorem C19_implication_chain_witness :
    AnyMessage (messageUpdate "/how does this".toList) = some true :=
  have h := C19_implication_chain simpleFoldLatin "how".toList 2 ["does this".toList]
    (messageUpdate "/how does this".toList)
  h.2.2.2.2 (h.2.2.2.1 (h.2.2.1 (h.1 (by decide))))

theorem foldRuneEq_self (simpleFold : Char → Char) (c : Char) :
    foldRuneEq simpleFold c c = true := by
  simp [foldRuneEq]

theorem equalFold_self (simpleFold : Char → Char) (s : Str) :
    EqualFold simpleFold s s = true := by
  induction s with
  | nil => rfl
  | cons c cs ih => simp [EqualFold, foldRuneEq_self, ih]

theorem isPrefixOf_self (s : Str) : s.isPrefixOf s = true := by
  induction s with
  | nil => rfl
  | cons c cs ih => simp [List.isPrefixOf, ih]

theorem contains_self (s : Str) : Contains s s = true := by
  cases s with
  | nil => rfl
  | cons c cs => simp [Contains, isPrefixOf_self]

theorem contains_nil (s : Str) : Contains s [] = true := by
  cases s with
  | nil => rfl
  | cons c cs => simp [Contains]

theorem hasSuffix_self (s : Str) : HasSuffix s s = true := by
  simp [HasSuffix, List.isSuffixOf, isPrefixOf_self]

/-- C20: exact text equality is the strongest message text matcher: when
`TextEqual(t)` is true on an update, so are `TextEqualFold(t)`, `TextContains(t)`,
`TextPrefix(t)` and `TextSuffix(t)`; and `TextPrefix("")`, `TextSuffix("")` and
`TextContains("")` have the value of `AnyMessage()` on every update. -/
theorem C20_equal_is_strongest (simpleFold : Char → Char) (t : Str) (u : Update) :
    (TextEqual t u = some true →
      TextEqualFold simpleFold t u = some true ∧ TextContains t u = some true ∧
        TextPrefix t u = some true ∧ TextSuffix t u = some true) ∧
    TextPrefix [] u = AnyMessage u ∧ TextSuffix [] u = AnyMessage u ∧
    TextContains [] u = AnyMessage u := by
  cases hm : u.Message with
  | none =>
    simp [TextEqual, textEqual, TextPrefix, textPrefix, TextSuffix, textSuffix,
      TextContains, textContains, AnyMessage, anyMassage, hm, goAnd]
  | some m =>
    refine ⟨?_, ?_, ?_, ?_⟩
    · intro h
      have ht : m.Text = t := by
        simpa [TextEqual, textEqual, hm, goAnd, field] using h
      subst ht
      simp [TextEqualFold, textEqualFold, TextContains, textContains, TextPrefix, textPrefix,
        TextSuffix, textSuffix, hm, goAnd, field, equalFold_self, contains_self,
        hasSuffix_self, HasPrefix, isPrefixOf_self]
    · simp [TextPrefix, textPrefix, AnyMessage, anyMassage, hm, goAnd, field, HasPrefix]
    · simp [TextSuffix, textSuffix, AnyMessage, anyMassage, hm, goAnd, field, HasSuffix,
        List.isSuffixOf]
    · simp [TextContains, textContains, AnyMessage, anyMassage, hm, goAnd, field,
        contains_nil]

/-- Witness of C20: the four weaker matchers on a message whose text is `Hmm?`. -/
theorem C20_equal_is_strongest_witness :
    TextEqualFold simpleFoldLatin "Hmm?".toList (messageUpdate "Hmm?".toList) = some true ∧
      TextContains "Hmm?".toList (messageUpdate "Hmm?".toList) = some true ∧
      TextPrefix "Hmm?".toList (messageUpdate "Hmm?".toList) = some true ∧
      TextSuffix "Hmm?".toList (messageUpdate "Hmm?".toList) = some true :=
  (C20_equal_is_strongest simpleFoldLatin "Hmm?".toList (messageUpdate "Hmm?".toList)).1
    (by decide)

end Telego
